import Mathlib

/-!
Verification development for the cookiemachine3 core: a shallow embedding of
`src/core/gcode_processor.py`, `src/core/machine_controller.py` and
`src/core/job_controller.py` in Lean, with theorems settling the spec claims.

Modelling conventions:
* Python strings are `List Char`; `chars` converts a Lean string literal.
* Python floats are modelled as exact rationals `ℚ`.  `math.sqrt` is passed
  in as an explicit parameter `rt : ℚ → ℚ` wherever the source calls it, and
  theorems state the hypotheses on `rt` they need (e.g. strict monotonicity,
  or its value on the concrete input of a test vector).
* Python code that can raise (e.g. `float()` on a malformed token,
  `list[-1]` on an empty list) is modelled with `Option`/`Except`: `none` /
  `.error` means the source raises at that point.
* `round(x, 3)` and the `:.3f` format use round-half-to-even, as CPython
  does on the exact value.
-/

namespace CookieMachine

def chars (s : String) : List Char := s.toList

/-! ## Character classes and basic string helpers (Python `str` methods) -/

def isWS (c : Char) : Bool := c = ' ' || c = '\t' || c = '\n' || c = '\r' || c = '\x0c' || c = '\x0b'

def isDigitC (c : Char) : Bool := 48 ≤ c.toNat && c.toNat ≤ 57

/-- the character class `[-\d.]` used by the X/Y coordinate patterns. -/
def classXY (c : Char) : Bool := isDigitC c || c = '-' || c = '.'

/-- Python `str.strip()` (both ends). -/
def strip (s : List Char) : List Char :=
  ((s.dropWhile isWS).reverse.dropWhile isWS).reverse

/-- Python `str.lstrip(';')`. -/
def lstripSemi (s : List Char) : List Char := s.dropWhile (· = ';')

/-- Python `sub in s` (substring containment). -/
def containsSub (pat : List Char) : List Char → Bool
  | [] => pat.isEmpty
  | c :: rest => pat.isPrefixOf (c :: rest) || containsSub pat rest

/-- Python `s.startswith(pat)`. -/
def startsWith (pat s : List Char) : Bool := pat.isPrefixOf s

def toUpperC (c : Char) : Char :=
  if 97 ≤ c.toNat && c.toNat ≤ 122 then Char.ofNat (c.toNat - 32) else c

/-- Python `str.upper()` (ASCII range, which is all the source needs). -/
def upper (s : List Char) : List Char := s.map toUpperC

/-- floor of a rational, written out with Euclidean division so that the
kernel can evaluate it (`⌊q⌋` itself reduces poorly); `floorQ_eq` below
identifies it with `⌊q⌋`. -/
def floorQ (q : ℚ) : ℤ := q.num.ediv q.den

/-- exact rational division, written with `Rat.divInt` so that the kernel can
evaluate it (`Rat.inv`, hence `/`, is marked irreducible); `divQ_eq` below
identifies it with `/`. -/
def divQ (a b : ℚ) : ℚ := a * Rat.divInt b.den b.num

/-! ## Number parsing (Python `float()` on regex-extracted tokens) -/

def digitVal (c : Char) : ℕ := c.toNat - 48

def natOfDigits (ds : List Char) : ℕ := ds.foldl (fun n c => 10 * n + digitVal c) 0

/-- unsigned decimal: `digits [. digits]` with at least one digit overall. -/
def parseUFloat? (s : List Char) : Option ℚ :=
  let ip := s.takeWhile isDigitC
  match s.drop ip.length with
  | [] => if ip.isEmpty then none else some (natOfDigits ip)
  | '.' :: frac =>
      if frac.all isDigitC && !(ip.isEmpty && frac.isEmpty) then
        some ((natOfDigits ip : ℚ) + divQ (natOfDigits frac : ℚ) (10 ^ frac.length))
      else none
  | _ => none

/-- Python `float()` restricted to the token shapes the regexes can produce. -/
def pyFloat? (s : List Char) : Option ℚ :=
  match s with
  | '-' :: rest => (parseUFloat? rest).map (fun q => -q)
  | '+' :: rest => parseUFloat? rest
  | _ => parseUFloat? s

/-! ## Number formatting -/

def digitChar (n : ℕ) : Char := Char.ofNat (48 + n)

def natDigitsAux : ℕ → ℕ → List Char
  | 0, _ => []
  | fuel + 1, n =>
      if n < 10 then [digitChar n]
      else natDigitsAux fuel (n / 10) ++ [digitChar (n % 10)]

def natDigits (n : ℕ) : List Char := natDigitsAux (n + 1) n

/-- round-half-to-even to the nearest integer (CPython's rounding of the
exact value of a float). -/
def rhalfEven (q : ℚ) : ℤ :=
  let n := floorQ q
  let f := q - n
  if f < mkRat 1 2 then n
  else if mkRat 1 2 < f then n + 1
  else if n % 2 = 0 then n else n + 1

/-- Python `round(q, 3)`. -/
def round3 (q : ℚ) : ℚ := divQ (rhalfEven (1000 * q) : ℚ) 1000

def padZeros (k : ℕ) (ds : List Char) : List Char :=
  List.replicate (k - ds.length) '0' ++ ds

/-- Python `f"{q:.3f}"`. -/
def fmt3Q (q : ℚ) : List Char :=
  let r := rhalfEven (1000 * q)
  (if r < 0 then ['-'] else []) ++
    natDigits (r.natAbs / 1000) ++ '.' :: padZeros 3 (natDigits (r.natAbs % 1000))

def fracDigits : ℕ → ℚ → List Char
  | 0, _ => []
  | fuel + 1, q =>
      if q = 0 then []
      else digitChar (floorQ (10 * q)).toNat :: fracDigits fuel (10 * q - (floorQ (10 * q) : ℚ))

/-- Python `str(float)` / f-string default formatting, for values whose exact
decimal expansion is short (which is the case for every value the theorems
evaluate it on); always prints at least one fractional digit, like CPython. -/
def pyStrFloat (q : ℚ) : List Char :=
  let s : List Char := if q < 0 then ['-'] else []
  let a := |q|
  let ds := fracDigits 17 (a - (floorQ a : ℚ))
  s ++ natDigits (floorQ a).toNat ++ '.' :: (if ds.isEmpty then ['0'] else ds)

/-! ## Regex-like searching and substitution

The source only uses a handful of fixed patterns; each gets a dedicated,
maximal-munch matcher.  Maximal munch agrees with Python's greedy matching
for these patterns (backtracking can never rescue a failed match, because a
shortened numeric group is always followed by another digit, which can never
satisfy the next literal in the pattern). -/

/-- search for the first `key` followed by one or more `cls`-characters
(pattern `K([cls]+)` with `re.search`).  Returns
`(text before the key, the token, text after the token)`. -/
def findTok (key : Char) (cls : Char → Bool) : List Char → Option (List Char × List Char × List Char)
  | [] => none
  | c :: rest =>
      if c = key then
        let tok := rest.takeWhile cls
        if tok.isEmpty then
          match findTok key cls rest with
          | some (p, t, r) => some (c :: p, t, r)
          | none => none
        else some ([], tok, rest.drop tok.length)
      else
        match findTok key cls rest with
        | some (p, t, r) => some (c :: p, t, r)
        | none => none

/-- worker for `subTokAll`: `skip` counts characters still to drop (the tail
of a replaced token), keeping the recursion structural. -/
def subTokGo (key : Char) (cls : Char → Bool) (repl : List Char) : ℕ → List Char → List Char
  | _, [] => []
  | k + 1, _ :: rest => subTokGo key cls repl k rest
  | 0, c :: rest =>
      if c = key then
        if (rest.takeWhile cls).isEmpty then c :: subTokGo key cls repl 0 rest
        else repl ++ subTokGo key cls repl (rest.takeWhile cls).length rest
      else c :: subTokGo key cls repl 0 rest

/-- `re.sub(r'K([cls]+)', repl, s)`: replace every match, scanning on after
each replaced match. -/
def subTokAll (key : Char) (cls : Char → Bool) (repl : List Char) (s : List Char) : List Char :=
  subTokGo key cls repl 0 s

/-- value of a `digits.digits` pair. -/
def valOfParts (ds fs : List Char) : ℚ :=
  (natOfDigits ds : ℚ) + divQ (natOfDigits fs : ℚ) (10 ^ fs.length)

/-- match `\d*\.\d+` at the current position: token, its value, rest. -/
def matchUFloatStrict (s1 : List Char) : Option (List Char × ℚ × List Char) :=
  match s1.drop (s1.takeWhile isDigitC).length with
  | '.' :: s3 =>
      if (s3.takeWhile isDigitC).isEmpty then none
      else some (s1.takeWhile isDigitC ++ '.' :: s3.takeWhile isDigitC,
                 valOfParts (s1.takeWhile isDigitC) (s3.takeWhile isDigitC),
                 s3.drop (s3.takeWhile isDigitC).length)
  | _ => none

/-- match `[0-9]*\.?[0-9]+` at the current position. -/
def matchUFloatLoose (s1 : List Char) : Option (List Char × ℚ × List Char) :=
  match s1.drop (s1.takeWhile isDigitC).length with
  | '.' :: s3 =>
      if (s3.takeWhile isDigitC).isEmpty then
        if (s1.takeWhile isDigitC).isEmpty then none
        else some (s1.takeWhile isDigitC, (natOfDigits (s1.takeWhile isDigitC) : ℚ),
                   s1.drop (s1.takeWhile isDigitC).length)
      else some (s1.takeWhile isDigitC ++ '.' :: s3.takeWhile isDigitC,
                 valOfParts (s1.takeWhile isDigitC) (s3.takeWhile isDigitC),
                 s3.drop (s3.takeWhile isDigitC).length)
  | _ =>
      if (s1.takeWhile isDigitC).isEmpty then none
      else some (s1.takeWhile isDigitC, (natOfDigits (s1.takeWhile isDigitC) : ℚ),
                 s1.drop (s1.takeWhile isDigitC).length)

/-- add the optional `[-+]?` sign in front of an unsigned matcher. -/
def withSign (m : List Char → Option (List Char × ℚ × List Char)) (s : List Char) :
    Option (List Char × ℚ × List Char) :=
  match s with
  | '-' :: r => (m r).map (fun (tok, v, rest) => ('-' :: tok, -v, rest))
  | '+' :: r => (m r).map (fun (tok, v, rest) => ('+' :: tok, v, rest))
  | _ => m s

/-- match `[-+]?\d*\.\d+` (the strict float group of the source's patterns). -/
def matchFloatStrict : List Char → Option (List Char × ℚ × List Char) :=
  withSign matchUFloatStrict

/-- match `[-+]?[0-9]*\.?[0-9]+` (the group of `suavizar_z`'s Z pattern). -/
def matchFloatLoose : List Char → Option (List Char × ℚ × List Char) :=
  withSign matchUFloatLoose

/-- search for `key` followed by a float per `m` (strict or loose matcher);
returns `(text before key, token, value, rest)`. -/
def findKeyFloat (key : Char) (m : List Char → Option (List Char × ℚ × List Char)) :
    List Char → Option (List Char × List Char × ℚ × List Char)
  | [] => none
  | c :: rest =>
      if c = key then
        match m rest with
        | some (tok, v, r) => some ([], tok, v, r)
        | none =>
            match findKeyFloat key m rest with
            | some (p, t, v, r) => some (c :: p, t, v, r)
            | none => none
      else
        match findKeyFloat key m rest with
        | some (p, t, v, r) => some (c :: p, t, v, r)
        | none => none

/-- worker for `subKeyFloatAll`: after a match whose rest is `r` (always a
suffix of the scanned text for these matchers), `rest.length - r.length`
characters are skipped, keeping the recursion structural. -/
def subKeyFloatGo (key : Char) (m : List Char → Option (List Char × ℚ × List Char))
    (repl : List Char) : ℕ → List Char → List Char
  | _, [] => []
  | k + 1, _ :: rest => subKeyFloatGo key m repl k rest
  | 0, c :: rest =>
      if c = key then
        match m rest with
        | some (_, _, r) => repl ++ subKeyFloatGo key m repl (rest.length - r.length) rest
        | none => c :: subKeyFloatGo key m repl 0 rest
      else c :: subKeyFloatGo key m repl 0 rest

/-- replace every `key`+float match (per matcher `m`) by `repl`. -/
def subKeyFloatAll (key : Char) (m : List Char → Option (List Char × ℚ × List Char))
    (repl : List Char) (s : List Char) : List Char :=
  subKeyFloatGo key m repl 0 s

/-- `re.search(r'Z([-+]?\d*\.\d+)', s)` (the pattern of `aplicar_mapa_alturas`
and `modificar_altura_activacion`). -/
def findZStrict : List Char → Option (List Char × List Char × ℚ × List Char) :=
  findKeyFloat 'Z' matchFloatStrict

/-- `re.sub(r'Z([-+]?\d*\.\d+)', repl, s)`. -/
def subZStrictAll (repl : List Char) : List Char → List Char :=
  subKeyFloatAll 'Z' matchFloatStrict repl

/-- `re.search(r'Z([-+]?[0-9]*\.?[0-9]+)', s)` (the pattern of `suavizar_z`). -/
def findZLoose : List Char → Option (List Char × List Char × ℚ × List Char) :=
  findKeyFloat 'Z' matchFloatLoose

/-- `re.sub(r'Z[-+]?[0-9]*\.?[0-9]+', repl, s)`. -/
def subZLooseAll (repl : List Char) : List Char → List Char :=
  subKeyFloatAll 'Z' matchFloatLoose repl

/-- `re.search(r'F[-+]?\d*\.\d*', s)`-style split helper: the F-number pattern
of `aplicar_mapa_alturas` (`\d*\.\d*`: the dot is mandatory, digits are not).
Returns `(text before F, the whole F-token, text after)`. -/
def matchFNum (s : List Char) : Option (List Char × List Char) :=
  match s with
  | '-' :: r => (matchDotPart r).map (fun (t, rest) => ('-' :: t, rest))
  | '+' :: r => (matchDotPart r).map (fun (t, rest) => ('+' :: t, rest))
  | _ => matchDotPart s
where
  matchDotPart (s1 : List Char) : Option (List Char × List Char) :=
    match s1.drop (s1.takeWhile isDigitC).length with
    | '.' :: s3 =>
        some (s1.takeWhile isDigitC ++ '.' :: s3.takeWhile isDigitC,
              s3.drop (s3.takeWhile isDigitC).length)
    | _ => none

/-- `re.split(r'(F[-+]?\d*\.\d*)', line, maxsplit=1)` reduced to what the
source uses: the first match, as `(before, F-token, after)`. -/
def findFNum : List Char → Option (List Char × List Char × List Char)
  | [] => none
  | c :: rest =>
      if c = 'F' then
        match matchFNum rest with
        | some (tok, r) => some ([], 'F' :: tok, r)
        | none =>
            match findFNum rest with
            | some (p, t, r) => some (c :: p, t, r)
            | none => none
      else
        match findFNum rest with
        | some (p, t, r) => some (c :: p, t, r)
        | none => none

/-- `re.search(r'ID=(\d+)', s)`. -/
def findIDNum : List Char → Option ℕ
  | 'I' :: 'D' :: '=' :: rest =>
      if (rest.takeWhile isDigitC).isEmpty then findIDNum ('D' :: '=' :: rest)
      else some (natOfDigits (rest.takeWhile isDigitC))
  | _ :: rest => findIDNum rest
  | [] => none

/-- `re.search(key + '"([^"]+)"', s)` where `key` ends with the opening
quote, e.g. `COLOR="`.  Returns the quoted body. -/
def findKeyQuoted (key : List Char) : List Char → Option (List Char)
  | [] => none
  | c :: rest =>
      if key.isPrefixOf (c :: rest) then
        match (c :: rest).drop key.length with
        | [] => findKeyQuoted key rest
        | d :: r2 =>
            let body := (d :: r2).takeWhile (fun x => !(x = '"'))
            if body.isEmpty then findKeyQuoted key rest
            else if ((d :: r2).drop body.length).head? = some '"' then some body
            else findKeyQuoted key rest
      else findKeyQuoted key rest

/-- `re.search(r'X([-+]?\d*\.\d+)\s*Y([-+]?\d*\.\d+)', s)`: the X/Y pair
pattern of `aplicar_mapa_alturas` and `_run_scan_routine`.  Returns the two
values.  (Backtracking never helps: a shortened first group ends before a
digit, which can satisfy neither `\s` nor `Y`.) -/
def findXYPair : List Char → Option (ℚ × ℚ)
  | [] => none
  | c :: rest =>
      if c = 'X' then
        match matchFloatStrict rest with
        | some (_, vx, r1) =>
            match (r1.dropWhile isWS) with
            | 'Y' :: r3 =>
                match matchFloatStrict r3 with
                | some (_, vy, _) => some (vx, vy)
                | none => findXYPair rest
            | _ => findXYPair rest
        | none => findXYPair rest
      else findXYPair rest

/-! ## `GcodeProcessor` (src/core/gcode_processor.py)

All functions operate on a `Line := List Char` exactly as the source
operates on Python strings. -/

/-- one entry of `parse_custom_gcode`'s `operations` list:
`{'injector_id': int, 'gcode_lines': [...]}`. -/
structure Operation where
  injector_id : ℤ
  gcode_lines : List (List Char)
deriving DecidableEq, Repr

/-- one entry of the `injectors` dict. -/
structure InjDef where
  color : List Char
  name : List Char
  nozzle : List Char
deriving DecidableEq, Repr

/-- parser state of `parse_custom_gcode`'s line loop
(gcode_processor.py lines 27-36). -/
structure PState where
  metadata : Option (List Char)
  json_buffer : List Char
  reading_json : Bool
  injectors : List (List Char × InjDef)
  current_op : Option Operation
  operations : List Operation
deriving DecidableEq

def pstateInit : PState := ⟨none, [], false, [], none, []⟩

/-- dict assignment `injectors[tid] = ...` (replace or append). -/
def assocSet (k : List Char) (v : InjDef) : List (List Char × InjDef) → List (List Char × InjDef)
  | [] => [(k, v)]
  | (k', v') :: rest => if k' = k then (k, v) :: rest else (k', v') :: assocSet k v rest

/-- the body of `parse_custom_gcode`'s `for line in lines:` loop
(gcode_processor.py lines 45-113).  `jsonParse` models `json.loads`; a `none`
result is the caught `JSONDecodeError` (metadata is left unchanged). -/
def parse_step (jsonParse : List Char → Option (List Char)) (st : PState) (rawLine : List Char) :
    PState :=
  let line := strip rawLine
  if line.isEmpty then st
  else if containsSub (chars "HEADER START") line then { st with reading_json := true }
  else if containsSub (chars "HEADER END") line then
    { st with reading_json := false,
              metadata := (match jsonParse st.json_buffer with
                          | some m => some m
                          | none => st.metadata) }
  else if st.reading_json then
    { st with json_buffer := st.json_buffer ++ strip (lstripSemi line) }
  else if containsSub (chars "DEFINE_INJECTOR") line then
    match findIDNum line with
    | some tid =>
        let key := natDigits tid
        let inj : InjDef :=
          ⟨(findKeyQuoted (chars "COLOR=\"") line).getD (chars "#FFFFFF"),
           (findKeyQuoted (chars "NAME=\"") line).getD (chars "Injector " ++ key),
           (findKeyQuoted (chars "NOZZLE=\"") line).getD (chars "generic")⟩
        { st with injectors := assocSet key inj st.injectors }
    | none => st
  else if containsSub (chars "CHANGE_INJECTOR") line then
    { st with
      operations := (match st.current_op with
                    | some op => st.operations ++ [op]
                    | none => st.operations),
      current_op := some ⟨(match findIDNum line with
                          | some tid => (tid : ℤ)
                          | none => -1), []⟩ }
  else if !(startsWith (chars ";") line) || startsWith (chars "(") line then
    match st.current_op with
    | some op => { st with current_op := some ⟨op.injector_id, op.gcode_lines ++ [line]⟩ }
    | none => st
  else st

/-- end-of-file handling (gcode_processor.py lines 115-118): an open,
non-empty operation is appended. -/
def parse_finalize (st : PState) : List Operation :=
  match st.current_op with
  | some op => if op.gcode_lines.isEmpty then st.operations else st.operations ++ [op]
  | none => st.operations

/-- `GcodeProcessor.parse_custom_gcode` applied to the list of lines read
from the file (gcode_processor.py lines 16-120). -/
def parse_custom_gcode (jsonParse : List Char → Option (List Char)) (lines : List (List Char)) :
    Option (List Char) × List (List Char × InjDef) × List Operation :=
  let st := lines.foldl (parse_step jsonParse) pstateInit
  (st.metadata, st.injectors, parse_finalize st)

/-- foldl-style minimum (Python `min(iterable, key=...)`: the first element
with minimal key wins ties).  `c` is the running best. -/
def pyMinBy (key : α → ℚ) : α → List α → α
  | c, [] => c
  | c, d :: rest => pyMinBy key (if key d < key c then d else c) rest

def listMinQ : List ℚ → ℚ
  | [] => 0
  | x :: xs => xs.foldl min x

def listMaxQ : List ℚ → ℚ
  | [] => 0
  | x :: xs => xs.foldl max x

/-- `GcodeProcessor.calcular_z_umbral` (gcode_processor.py lines 124-139). -/
def calcular_z_umbral (puntos_xyz : List (ℚ × ℚ × ℚ)) (altura_piso nozzle_spacing : ℚ)
    (porcentaje_umbral : ℚ) : ℚ :=
  let alturas_cercanas :=
    (puntos_xyz.filter (fun p => |p.2.2 - altura_piso| ≤ nozzle_spacing)).map (fun p => p.2.2)
  let alturas_z := if alturas_cercanas.isEmpty then puntos_xyz.map (fun p => p.2.2)
                   else alturas_cercanas
  if alturas_z.isEmpty then 0
  else listMinQ alturas_z + porcentaje_umbral * (listMaxQ alturas_z - listMinQ alturas_z)

/-- the candidate set of `find_closest_coordinate`
(gcode_processor.py lines 143-147): the samples above the threshold when a
threshold is given and the filtered list is non-empty, else all samples. -/
def candidatos (coordinates : List (ℚ × ℚ × ℚ)) (umbral : Option ℚ) : List (ℚ × ℚ × ℚ) :=
  match umbral with
  | some u =>
      let filtrados := coordinates.filter (fun c => u < c.2.2)
      if filtrados.isEmpty then coordinates else filtrados
  | none => coordinates

/-- `GcodeProcessor.find_closest_coordinate` (gcode_processor.py lines
141-152).  `rt` models `math.sqrt`; the minimised key is
`rt((cx-x)² + (cy-y)²)` exactly as in the source, and `pyMinBy` is Python's
`min`, whose first minimal element wins ties. -/
def find_closest_coordinate (rt : ℚ → ℚ) (x y : ℚ) (coordinates : List (ℚ × ℚ × ℚ))
    (umbral : Option ℚ) : ℚ × ℚ × ℚ :=
  match candidatos coordinates umbral with
  | [] => (0, 0, 0)
  | c :: cs => pyMinBy (fun c => rt ((c.1 - x) ^ 2 + (c.2.1 - y) ^ 2)) c cs

/-- the first element of `l` whose key is minimal over `l` (the spec's
"Euclidean-nearest candidate, ties broken by first-encountered order"). -/
def firstMinP (key : α → ℚ) (l : List α) : Option α :=
  l.find? (fun a => l.all (fun b => decide (key a ≤ key b)))

/-- NearestSample as §4.2 of the spec words it: the candidate set as above;
`(0,0,0)` when it is empty; otherwise the first candidate at minimal
Euclidean XY distance from `(x, y)` (squared distance orders identically,
`math.sqrt` being strictly monotone). -/
def nearestSampleSpec (x y : ℚ) (samples : List (ℚ × ℚ × ℚ)) (threshold : Option ℚ) :
    ℚ × ℚ × ℚ :=
  match firstMinP (fun c => (c.1 - x) ^ 2 + (c.2.1 - y) ^ 2) (candidatos samples threshold) with
  | some c => c
  | none => (0, 0, 0)

/-- worker for `replaceAllSub` with a skip counter for the structurally
consumed pattern tail. -/
def replaceAllGo (pat repl : List Char) : ℕ → List Char → List Char
  | _, [] => []
  | k + 1, _ :: rest => replaceAllGo pat repl k rest
  | 0, c :: rest =>
      if pat.isEmpty then c :: replaceAllGo pat repl 0 rest
      else if pat.isPrefixOf (c :: rest) then
        repl ++ replaceAllGo pat repl (pat.length - 1) rest
      else c :: replaceAllGo pat repl 0 rest

/-- `re.sub` with a literal pattern (used for `Z11\.000` / `Z4\.000`):
replace every occurrence. -/
def replaceAllSub (pat repl : List Char) (s : List Char) : List Char :=
  replaceAllGo pat repl 0 s

/-- the per-line step of `GcodeProcessor.sumar_offset_xy`
(gcode_processor.py lines 270-283): offsets the first X / Y match and stamps
the freshly formatted value back with `re.sub` (which replaces every match);
the Y value is searched on the original line but substituted into the already
X-substituted one, exactly as in the source. -/
def sumarLine (offset_x offset_y : ℚ) (line : List Char) : Option (List Char) :=
  let n1 : Option (List Char) :=
    match findTok 'X' classXY line with
    | none => some line
    | some (_, tok, _) =>
        match pyFloat? tok with
        | none => none
        | some v => some (subTokAll 'X' classXY ('X' :: fmt3Q (v + offset_x)) line)
  match n1 with
  | none => none
  | some nl =>
      match findTok 'Y' classXY line with
      | none => some nl
      | some (_, tok, _) =>
          match pyFloat? tok with
          | none => none
          | some v => some (subTokAll 'Y' classXY ('Y' :: fmt3Q (v + offset_y)) nl)

/-- `GcodeProcessor.sumar_offset_xy` (gcode_processor.py lines 264-284). -/
def sumar_offset_xy (gcode_list : List (List Char)) (offset_x offset_y : ℚ) :
    Option (List (List Char)) :=
  gcode_list.mapM (sumarLine offset_x offset_y)

/-- the per-line step of `GcodeProcessor.aplicar_mapa_alturas`
(gcode_processor.py lines 162-206): `prev` is the last-seen X/Y pair; the
result is the new `prev` plus the emitted lines (`none` = the source raises,
namely `parts[1]` when a line contains `F` but no `F`-number). -/
def aplicarLine (rt : ℚ → ℚ) (list_alturas : List (ℚ × ℚ × ℚ)) (z_umbral : ℚ)
    (prev : Option (ℚ × ℚ)) (rawLine : List Char) :
    Option (Option (ℚ × ℚ) × List (List Char)) :=
  let line := strip rawLine
  let m := findXYPair line
  let prev' := match m with
               | some p => some p
               | none => prev
  if startsWith (chars "G1") line && m.isSome then
    match m with
    | some (x, y) =>
        let closest := find_closest_coordinate rt x y list_alturas (some z_umbral)
        let z_real := round3 closest.2.2
        if containsSub (chars "F") line then
          match findFNum line with
          | some (p0, ftok, p2) =>
              some (prev', [p0 ++ ('Z' :: pyStrFloat z_real) ++ ftok ++ p2])
          | none => none
        else some (prev', [line ++ 'Z' :: pyStrFloat z_real])
    | none => none
  else if startsWith (chars "G0") line && containsSub (chars "Z11.000") line then
    match prev' with
    | some (px, py) =>
        let closest := find_closest_coordinate rt px py list_alturas (some z_umbral)
        let z_safe := round3 (closest.2.2 + 10)
        some (prev',
          [replaceAllSub (chars "Z11.000") ('Z' :: pyStrFloat z_safe) line ++ chars " ; z_safe"])
    | none => some (prev', [line])
  else if startsWith (chars "G1") line && containsSub (chars "Z4.000") line then
    match prev' with
    | some (px, py) =>
        let closest := find_closest_coordinate rt px py list_alturas (some z_umbral)
        let z_real := round3 closest.2.2
        some (prev',
          [replaceAllSub (chars "Z4.000") ('Z' :: pyStrFloat z_real) line ++ chars " ; z_down",
           chars "M8"])
    | none => some (prev', [line])
  else some (prev', [line])

def aplicarGo (rt : ℚ → ℚ) (alturas : List (ℚ × ℚ × ℚ)) (zu : ℚ) (prev : Option (ℚ × ℚ)) :
    List (List Char) → Option (List (List Char))
  | [] => some []
  | l :: rest =>
      match aplicarLine rt alturas zu prev l with
      | none => none
      | some (prev', outs) => (aplicarGo rt alturas zu prev' rest).map (fun t => outs ++ t)

/-- `GcodeProcessor.aplicar_mapa_alturas` (gcode_processor.py lines 154-208). -/
def aplicar_mapa_alturas (rt : ℚ → ℚ) (gcode_origin : List (List Char))
    (list_alturas : List (ℚ × ℚ × ℚ)) (z_umbral : ℚ) : Option (List (List Char)) :=
  aplicarGo rt list_alturas z_umbral none gcode_origin

/-- the Z values `suavizar_z` collects, with their line indices
(gcode_processor.py lines 215-220): lines containing `G0` are skipped. -/
def collectZ (gcode_lines : List (List Char)) : List (ℕ × ℚ) :=
  gcode_lines.enum.filterMap (fun p =>
    if containsSub (chars "G0") p.2 then none
    else (findZLoose p.2).map (fun q => (p.1, q.2.2.1)))

/-- the centred moving average of `suavizar_z`
(gcode_processor.py lines 224-229), windows clamped at the ends. -/
def smoothAvg (zs : List ℚ) (window_size : ℕ) : List ℚ :=
  (List.range zs.length).map (fun i =>
    let start := i - window_size / 2
    let stop := min zs.length (i + window_size / 2 + 1)
    let w := (zs.drop start).take (stop - start)
    divQ w.sum w.length)

/-- `GcodeProcessor.suavizar_z` (gcode_processor.py lines 210-236). -/
def suavizar_z (gcode_lines : List (List Char)) (window_size : ℕ) : List (List Char) :=
  let col := collectZ gcode_lines
  if col.isEmpty then gcode_lines
  else
    let sm := smoothAvg (col.map (fun p => p.2)) window_size
    let assoc := (col.map (fun p => p.1)).zip sm
    gcode_lines.enum.map (fun p =>
      match assoc.lookup p.1 with
      | some v => subZLooseAll ('Z' :: fmt3Q v) p.2
      | none => p.2)

/-- the loop of `GcodeProcessor.modificar_altura_activacion`
(gcode_processor.py lines 240-261): `updated` is the output built so far,
`zdown` the pending `z_down_line`.  `none` models the `updated[-1]`
IndexError (an `M8` with a pending z_down line as the very first line). -/
def modGo (altura_activacion : ℚ) (updated : List (List Char)) (zdown : Option (List Char)) :
    List (List Char) → Option (List (List Char))
  | [] => some updated
  | line :: rest =>
      let zd := if containsSub (chars "; z_down") line then some line else zdown
      match zd with
      | some zl =>
          if containsSub (chars "M8") line then
            match updated.getLast? with
            | none => none
            | some prev =>
                let newPrev :=
                  match findZStrict prev with
                  | some (_, _, zv, _) =>
                      subZStrictAll ('Z' :: pyStrFloat (zv + altura_activacion)) prev
                        ++ chars " ; activation_height"
                  | none => prev
                modGo altura_activacion (updated.dropLast ++ [newPrev, line, zl]) none rest
          else modGo altura_activacion (updated ++ [line]) zd rest
      | none => modGo altura_activacion (updated ++ [line]) none rest

/-- `GcodeProcessor.modificar_altura_activacion`
(gcode_processor.py lines 238-262). -/
def modificar_altura_activacion (gcode : List (List Char)) (altura_activacion : ℚ) :
    Option (List (List Char)) :=
  modGo altura_activacion [] none gcode

/-- machine state of `resample_gcode_scan`'s loop: current position and the
leftover-distance accumulator (gcode_processor.py lines 300-304). -/
structure RState where
  currX : ℚ
  currY : ℚ
  overflow : ℚ
deriving DecidableEq, Repr

/-- the points the `while` loop of `resample_gcode_scan` emits
(gcode_processor.py lines 361-369): `n` points starting at arc length `d0`,
spaced `step` apart along the unit vector `(ux, uy)` from `(x, y)`. -/
def emitRange (x y ux uy step d0 : ℚ) (n : ℕ) : List (List Char) :=
  (List.range n).map (fun k =>
    chars "G1 X" ++ fmt3Q (x + ux * (d0 + k * step)) ++ chars " Y" ++
      fmt3Q (y + uy * (d0 + k * step)))

/-- one iteration of `resample_gcode_scan`'s line loop
(gcode_processor.py lines 308-376).  `none` models an exception
(unparseable coordinate token) or the non-terminating `while` loop that
`step_distance <= 0` would produce. -/
def resampleLine (rt : ℚ → ℚ) (step : ℚ) (st : RState) (line : List Char) :
    Option (RState × List (List Char)) :=
  let ul := upper (strip line)
  if ul.isEmpty || startsWith (chars ";") ul || startsWith (chars "(") ul then some (st, [])
  else
    let mx := findTok 'X' classXY ul
    let my := findTok 'Y' classXY ul
    if mx.isNone && my.isNone then some (st, [])
    else
      let ox : Option ℚ := match mx with
                           | some (_, tok, _) => pyFloat? tok
                           | none => some st.currX
      let oy : Option ℚ := match my with
                           | some (_, tok, _) => pyFloat? tok
                           | none => some st.currY
      match ox, oy with
      | some tx, some ty =>
          if startsWith (chars "G0") ul then
            some (⟨tx, ty, 0⟩, [chars "G0 X" ++ fmt3Q tx ++ chars " Y" ++ fmt3Q ty])
          else if startsWith (chars "G1") ul then
            let dx := tx - st.currX
            let dy := ty - st.currY
            let seg := rt (dx ^ 2 + dy ^ 2)
            if seg ≤ mkRat 1 100000 then some (st, [])
            else if seg < step - st.overflow then
              -- zero loop iterations; only the overflow is updated
              some (⟨tx, ty, seg - ((step - st.overflow) - step)⟩, [])
            else if step ≤ 0 then none
            else
              let d0 := step - st.overflow
              let n : ℕ := (floorQ (divQ (seg - d0) step)).toNat + 1
              some (⟨tx, ty, seg - (d0 + n * step - step)⟩,
                    emitRange st.currX st.currY (divQ dx seg) (divQ dy seg) step d0 n)
          else some (st, [])
      | _, _ => none

def resampleGo (rt : ℚ → ℚ) (step : ℚ) (st : RState) :
    List (List Char) → Option (RState × List (List Char))
  | [] => some (st, [])
  | l :: rest =>
      match resampleLine rt step st l with
      | none => none
      | some (st1, out1) =>
          (resampleGo rt step st1 rest).map (fun p => (p.1, out1 ++ p.2))

/-- `GcodeProcessor.resample_gcode_scan` (gcode_processor.py lines 288-378). -/
def resample_gcode_scan (rt : ℚ → ℚ) (gcode_text : List (List Char)) (step_distance : ℚ) :
    Option (List (List Char)) :=
  (resampleGo rt step_distance ⟨0, 0, 0⟩ gcode_text).map (fun p => p.2)

/-! ## `MachineController` listener (src/core/machine_controller.py)

The listener loop's per-line processing (machine_controller.py lines
160-196).  Only a line that both starts with `{` and ends with `}` is
treated as a status report; everything else (`ok`, greetings, and in
particular bare `ALARM:<code>` / `error:<code>` lines) is skipped without
touching any state.  JSON decoding is a parameter; a `none` result is the
caught `JSONDecodeError` ("Recibido JSON corrupto"). -/

/-- the decoded fields the listener reads from a status JSON:
`State.name` and `MPos`. -/
structure StatusJson where
  stateName : Option (List Char)
  mpos : Option (List ℚ)

/-- the externally observable effects of processing one line. -/
inductive ListenerEvent
  | logMsg (msg : List Char)
  | statusChanged (state : List Char)
  | machineReady (ready : Bool)
  | positionUpdated (x y z : ℚ)
deriving DecidableEq

/-- `MachineController._update_machine_state`
(machine_controller.py lines 203-217). -/
def update_machine_state (machine_state new_state : List Char) :
    List Char × List ListenerEvent :=
  if machine_state = new_state then (machine_state, [])
  else (new_state,
        [ListenerEvent.statusChanged new_state,
         ListenerEvent.machineReady (new_state = chars "Idle")])

/-- the read-and-dispatch body of `MachineController.run_listener_loop` for
one received line (machine_controller.py lines 160-196), returning the new
`machine_state` and the emitted events. -/
def processLine (jsonParse : List Char → Option StatusJson) (machine_state : List Char)
    (raw : List Char) : List Char × List ListenerEvent :=
  let line := strip raw
  if line.isEmpty then (machine_state, [])
  else if !(line.head? = some (Char.ofNat 123) && line.getLast? = some (Char.ofNat 125)) then
    (machine_state, [])
  else
    match jsonParse line with
    | none => (machine_state, [ListenerEvent.logMsg (chars "Recibido JSON corrupto. Ignorando.")])
    | some j =>
        let (st1, ev1) :=
          match j.stateName with
          | some n => update_machine_state machine_state n
          | none => (machine_state, [])
        let ev2 :=
          match j.mpos with
          | some pos =>
              match pos with
              | x :: y :: z :: _ => [ListenerEvent.positionUpdated x y z]
              | _ => []
          | none => []
        (st1, ev1 ++ ev2)

/-! ## `JobController` (src/core/job_controller.py) -/

/-- one cooperative poll's view of the `JobController` fields the wait
helpers read (updated from other tasks via Qt signals). -/
structure PollObs where
  machineState : List Char
  isRunning : Bool
  isPaused : Bool
  posX : ℚ
  posY : ℚ

/-- the exit condition of `JobController._wait_for_idle`'s `while` loop at
poll `i` (job_controller.py lines 336-348): the loop leaves only when the
state reads `Idle` or the running flag is cleared — there is no timeout.
(`_check_pause` in the body returns immediately while not paused.) -/
def wait_for_idle_exit (tr : ℕ → PollObs) (i : ℕ) : Prop :=
  (tr i).machineState = chars "Idle" ∨ (tr i).isRunning = false

/-- `_wait_for_idle` terminates iff some poll satisfies its exit condition. -/
def wait_for_idle_terminates (tr : ℕ → PollObs) : Prop :=
  ∃ i, wait_for_idle_exit tr i

/-- the exit condition of `JobController._wait_for_pos_and_idle` at poll `i`
(job_controller.py lines 427-454): not running → `False`; position within
tolerance and state `Idle` → `True`; elapsed wall time beyond the timeout →
`False`.  `elapsed i` is the wall time at the `i`-th timeout check; each
iteration sleeps 0.01 s. -/
def wait_for_pos_and_idle_exit (tr : ℕ → PollObs) (elapsed : ℕ → ℚ)
    (target_x target_y tolerance timeout : ℚ) (i : ℕ) : Prop :=
  (tr i).isRunning = false ∨
  ((|(tr i).posX - target_x| < tolerance ∧ |(tr i).posY - target_y| < tolerance) ∧
    (tr i).machineState = chars "Idle") ∨
  timeout < elapsed i

/-- the exit condition of `JobController._get_main_frame_sync` at poll `i`
(job_controller.py lines 354-362): its timeout is a counter incremented by
0.05 per iteration and checked against 3.0, together with the running flag;
`frame i` is the shared `_last_main_frame` slot at poll `i`. -/
def get_main_frame_exit (frame : ℕ → Option ℕ) (tr : ℕ → PollObs) (i : ℕ) : Prop :=
  frame i ≠ none ∨ (tr i).isRunning = false ∨ (3 : ℚ) < (i + 1) * (1 / 20)

/-- the exit condition of `JobController._get_new_laser_frame` at poll `i`
(job_controller.py lines 456-464): fresh frame present, running flag
cleared, or wall time beyond the 2.0 s timeout; each iteration sleeps
0.005 s. -/
def get_new_laser_frame_exit (frame : ℕ → Option ℕ) (tr : ℕ → PollObs) (elapsed : ℕ → ℚ)
    (i : ℕ) : Prop :=
  frame i ≠ none ∨ (tr i).isRunning = false ∨ (2 : ℚ) < elapsed i

/-- boustrophedon cell order of `_run_process`'s double loop
(job_controller.py lines 207-210). -/
def cellOrder (rows cols : ℕ) : List (ℕ × ℕ) :=
  (List.range rows).flatMap (fun i =>
    (if i % 2 = 0 then List.range cols else (List.range cols).reverse).map (fun j => (i, j)))

/-- the environment `_run_process` reads besides the loaded operations:
tray geometry, settings, and the external vision / camera / height
collaborators (spec §6).  Frames are opaque ids. -/
structure JobEnv where
  rt : ℚ → ℚ
  rows : ℕ
  cols : ℕ
  matriz : ℕ → ℕ → ℚ × ℚ
  centroCamera : ℚ × ℚ
  mainFrame : ℕ × ℕ → Option ℕ
  findCookiePose : ℕ → List (ℚ × ℚ × ℚ)
  pixelToMm : ℚ × ℚ → ℚ × ℚ → ℚ × ℚ
  laserFrame : ℕ × ℕ → ℕ → Option ℕ
  analyze : ℕ → ℚ
  laserOffX : ℚ
  laserOffY : ℚ

/-- the command emissions and collected scan points of
`JobController._run_scan_routine` (job_controller.py lines 364-425): `F500`
first, then per line either the offset-corrected `G0/G1 X.. Y..` command (for
lines with an X/Y pair, collecting a point when a fresh laser frame arrives)
or the line verbatim.  `k` numbers the frame-wait attempts. -/
def scanRoutineGo (env : JobEnv) (cell : ℕ × ℕ) (k : ℕ) :
    List (List Char) → List (List Char) × List (ℚ × ℚ × ℕ)
  | [] => ([], [])
  | line :: rest =>
      match findXYPair line with
      | some (tx, ty) =>
          let mx := tx - env.laserOffX
          let my := ty - env.laserOffY
          let cmd := (if containsSub (chars "G0") (upper line) then chars "G0" else chars "G1")
            ++ chars " X" ++ fmt3Q mx ++ chars " Y" ++ fmt3Q my
          let (cs, ps) := scanRoutineGo env cell (k + 1) rest
          match env.laserFrame cell k with
          | some f => (cmd :: cs, (tx, ty, f) :: ps)
          | none => (cmd :: cs, ps)
      | none =>
          let (cs, ps) := scanRoutineGo env cell k rest
          (line :: cs, ps)

def runScanRoutine (env : JobEnv) (cell : ℕ × ℕ) (gcode_scan : List (List Char)) :
    List (List Char) × List (ℚ × ℚ × ℕ) :=
  (chars "F500" :: (scanRoutineGo env cell 0 gcode_scan).1, (scanRoutineGo env cell 0 gcode_scan).2)

/-- per-cell processing of `_run_process` (job_controller.py lines 210-302),
reduced to the lines it sends on the `request_command` channel.  `none`
models an exception escaping the cell (there is no per-cell handler);
`some []` is a skipped cell (camera timeout / no cookie found). -/
def cellCommands (env : JobEnv) (gcode_scan gcode_operation : List (List Char)) (cell : ℕ × ℕ) :
    Option (List (List Char)) :=
  match env.mainFrame cell with
  | none => some []
  | some img =>
      match env.findCookiePose img with
      | [] => some []
      | (cx, cy, _) :: _ =>
          let pos_camara := ((env.matriz cell.1 cell.2).1 + env.centroCamera.1,
                            (env.matriz cell.1 cell.2).2 + env.centroCamera.2)
          let pos_real := env.pixelToMm (cx, cy) pos_camara
          let offset_x := pos_real.1 - env.centroCamera.1
          let offset_y := pos_real.2 - env.centroCamera.2
          match sumar_offset_xy gcode_scan offset_x offset_y with
          | none => none
          | some scan_route_real =>
              let (scanCmds, puntos) := runScanRoutine env cell scan_route_real
              let alturas := puntos.map (fun p => (p.1, p.2.1, env.analyze p.2.2))
              let z_umbral := calcular_z_umbral alturas 0 10 (3/5)
              match sumar_offset_xy gcode_operation offset_x offset_y with
              | none => none
              | some gcode_draw_moved =>
                  match aplicar_mapa_alturas env.rt gcode_draw_moved alturas z_umbral with
                  | none => none
                  | some g1 => some (scanCmds ++ suavizar_z g1 3)

/-- the grid loop of `_run_process` over the already-derived scan and
decoration programs: concatenates each cell's command emissions; an
exception in a cell aborts everything after it (second component `false`). -/
def runProcessCells (proc : ℕ × ℕ → Option (List (List Char))) :
    List (ℕ × ℕ) → List (List Char) × Bool
  | [] => ([], true)
  | c :: cs =>
      match proc c with
      | none => ([], false)
      | some cmds => (cmds ++ (runProcessCells proc cs).1, (runProcessCells proc cs).2)

/-- `JobController._run_process` (job_controller.py lines 187-308) as the
list of lines sent on the motion-command (`request_command`) channel.  Note
line 191: `operation = self._loaded_operations[0]` — only the head of the
operations list is ever read; `$H` is sent after a completed grid.  An empty
operations list raises (IndexError) before anything is sent. -/
def jobCommands (env : JobEnv) (operations : List Operation) : List (List Char) :=
  match operations with
  | [] => []
  | op :: _ =>
      match resample_gcode_scan env.rt op.gcode_lines 2 with
      | none => []
      | some gcode_scan =>
          let (cmds, ok) :=
            runProcessCells (cellCommands env gcode_scan op.gcode_lines)
              (cellOrder env.rows env.cols)
          cmds ++ if ok then [chars "$H"] else []

/-- `_run_process` as an `Except`: `.error ()` when an exception escapes the
grid loop (or the empty-operations IndexError), `.ok` with the emitted
commands otherwise. -/
def run_process_except (env : JobEnv) (operations : List Operation) :
    Except Unit (List (List Char)) :=
  match operations with
  | [] => Except.error ()
  | op :: _ =>
      match resample_gcode_scan env.rt op.gcode_lines 2 with
      | none => Except.error ()
      | some gcode_scan =>
          let (cmds, ok) :=
            runProcessCells (cellCommands env gcode_scan op.gcode_lines)
              (cellOrder env.rows env.cols)
          if ok then Except.ok cmds else Except.error ()

/-- `JobController.start_job` (job_controller.py lines 158-166): the
`try/except` around `_run_process` is commented out in the source, so
whatever `_run_process` raises propagates unchanged to the caller. -/
def start_job_except (env : JobEnv) (operations : List Operation) :
    Except Unit (List (List Char)) :=
  run_process_except env operations

/-- a concrete environment for evaluating the job pipeline: a 1×1 grid, a
camera frame with one located cookie at the nominal centre, no laser frames. -/
def envC3 : JobEnv where
  rt := fun _ => 0
  rows := 1
  cols := 1
  matriz := fun _ _ => (0, 0)
  centroCamera := (0, 0)
  mainFrame := fun _ => some 0
  findCookiePose := fun _ => [(0, 0, 0)]
  pixelToMm := fun _ _ => (0, 0)
  laserFrame := fun _ _ => none
  analyze := fun _ => 0
  laserOffX := 0
  laserOffY := 0

/-! ## Theorems settling the claims -/

/-- helper: the grid loop finishes without an exception iff no cell's
processing raises. -/
theorem runProcessCells_ok (proc : ℕ × ℕ → Option (List (List Char))) :
    ∀ cells, (runProcessCells proc cells).2 = true ↔ ∀ c ∈ cells, proc c ≠ none := by
  intro cells
  induction cells with
  | nil => simp [runProcessCells]
  | cons c cs ih =>
      cases h : proc c with
      | none => simp [runProcessCells, h]
      | some cmds => simp [runProcessCells, h, ih]

/-- C1 (counterexample): the inbound line `ALARM:2` does not set MachineState
to "Alarm": the listener treats only `{...}` lines as status reports, so the
state stays "Idle" and nothing is logged — contradicting the claim that
`ALARM:<code>` forces MachineState = "Alarm" and logs a description. -/
theorem C1_counterexample :
    (processLine (fun _ => none) (chars "Idle") (chars "ALARM:2")).1 = chars "Idle" ∧
    (processLine (fun _ => none) (chars "Idle") (chars "ALARM:2")).2 = ([] : List ListenerEvent) ∧
    chars "Idle" ≠ chars "Alarm" := by
  refine ⟨by decide, by decide, by decide⟩

/-- C1 (amended): any received line whose first non-blank character is not
`{` — in particular bare `ALARM:<code>` and `error:<code>` lines — is skipped
by the listener loop: `machine_state` is unchanged and no event (no log, no
status change) is emitted.  MachineState can only change through a JSON
status report. -/
theorem C1_nonjson_ignored (jsonParse : List Char → Option StatusJson)
    (machine_state raw : List Char) (c : Char)
    (hhead : (strip raw).head? = some c) (hc : c ≠ Char.ofNat 123) :
    processLine jsonParse machine_state raw = (machine_state, []) := by
  have hne : (strip raw).isEmpty = false := by
    cases h : strip raw with
    | nil => rw [h] at hhead; simp at hhead
    | cons a t => simp
  simp only [processLine, hne, Bool.false_eq_true, if_false, hhead]
  have hd : (decide (some c = some (Char.ofNat 123))) = false := by
    simp [hc]
  simp only [hd, Bool.false_and, Bool.not_false, if_true]

/-- witness for C1_nonjson_ignored: a bare `error:5` line leaves the state
untouched and logs nothing. -/
theorem C1_nonjson_ignored_witness :
    processLine (fun _ => none) (chars "Idle") (chars "error:5") = (chars "Idle", []) :=
  C1_nonjson_ignored (fun _ => none) (chars "Idle") (chars "error:5") 'e' (by decide) (by decide)

/-- C3 (counterexample): an exception raised while processing a cell
propagates out of `start_job` (the `try/except` at job_controller.py lines
162-166 is commented out).  Concretely: the loaded operation block contains
the line `; X1.0- marker`, whose X token `1.0-` makes `float()` raise inside
`sumar_offset_xy` during the first cell's processing, and `start_job`
surfaces the error instead of returning normally. -/
theorem C3_counterexample :
    start_job_except envC3 [⟨1, [chars "G1 X1.000 Y2.000", chars "; X1.0- marker"]⟩]
      = Except.error () := by
  with_unfolding_all rfl

/-- C3 (amended): no exception from a cell is caught anywhere in the job
start path: `start_job` returns normally iff the scan-path derivation
succeeds and every cell of the grid processes without raising; the first
raising cell aborts the whole run with the exception escaping to the caller
of `start_job`. -/
theorem C3_exceptions_escape (env : JobEnv) (b0 : Operation) (rest : List Operation) :
    (∃ cmds, start_job_except env (b0 :: rest) = Except.ok cmds) ↔
      (∃ gscan, resample_gcode_scan env.rt b0.gcode_lines 2 = some gscan ∧
        ∀ c ∈ cellOrder env.rows env.cols,
          cellCommands env gscan b0.gcode_lines c ≠ none) := by
  unfold start_job_except run_process_except
  cases hres : resample_gcode_scan env.rt b0.gcode_lines 2 with
  | none => simp [hres]
  | some gscan =>
      simp only [hres, Option.some.injEq]
      constructor
      · rintro ⟨cmds, hcmds⟩
        refine ⟨gscan, rfl, ?_⟩
        rw [← runProcessCells_ok (cellCommands env gscan b0.gcode_lines)]
        by_contra hnot
        simp only [Bool.not_eq_true] at hnot
        rw [hnot] at hcmds
        simp at hcmds
      · rintro ⟨g2, hg, hall⟩
        subst hg
        rw [← runProcessCells_ok (cellCommands env gscan b0.gcode_lines)] at hall
        rw [hall]
        exact ⟨_, rfl⟩

/-- C4: a started job derives everything it sends on the motion-command
channel — the resampled scan path, the scan motion commands and the executed
decoration toolpath — exclusively from the first operation block: the whole
emitted command stream is unchanged no matter what the subsequent operation
blocks contain (`_run_process` reads only `self._loaded_operations[0]`), so
no motion line of any later block is ever sent. -/
theorem C4_first_block_only (env : JobEnv) (op : Operation) (rest : List Operation) :
    jobCommands env (op :: rest) = jobCommands env [op] := rfl

/-- C5 (counterexample): two consecutive `CHANGE_INJECTOR` markers make the
parser return an empty OperationBlock — the mid-file append at
gcode_processor.py line 91 is not guarded by non-emptiness, contradicting
the claim that the operations list contains no empty block. -/
theorem C5_counterexample :
    Operation.mk 1 [] ∈
      (parse_custom_gcode (fun _ => none)
        [chars "; CHANGE_INJECTOR ID=1", chars "; CHANGE_INJECTOR ID=2",
         chars "G1 X0.000"]).2.2 := by
  decide

/-- C5 (amended): a `CHANGE_INJECTOR` marker closes and appends the
currently-open OperationBlock unconditionally — even when the block is
empty; only the end-of-input append is guarded by non-emptiness (an open
empty block at EOF is dropped). -/
theorem C5_append_behaviour :
    (∀ jsonParse st line op,
        st.reading_json = false →
        containsSub (chars "HEADER START") (strip line) = false →
        containsSub (chars "HEADER END") (strip line) = false →
        containsSub (chars "DEFINE_INJECTOR") (strip line) = false →
        containsSub (chars "CHANGE_INJECTOR") (strip line) = true →
        st.current_op = some op →
        (parse_step jsonParse st line).operations = st.operations ++ [op]) ∧
    (∀ st op, st.current_op = some op → op.gcode_lines = [] →
        parse_finalize st = st.operations) := by
  constructor
  · intro jsonParse st line op hrj h1 h2 h3 h4 hop
    have hne : (strip line).isEmpty = false := by
      cases h : strip line with
      | nil => rw [h] at h4; exact absurd h4 (by decide)
      | cons a t => simp
    unfold parse_step
    simp only [hne, h1, h2, h3, h4, hrj, hop, Bool.false_eq_true, if_false, if_true]
  · intro st op hop hemp
    unfold parse_finalize
    simp [hop, hemp]

/-- witness for C5_append_behaviour: a concrete `CHANGE_INJECTOR` line
appends the open empty block, and a concrete EOF state with an open empty
block drops it. -/
theorem C5_append_behaviour_witness :
    (parse_step (fun _ => none) ⟨none, [], false, [], some ⟨1, []⟩, []⟩
        (chars "; CHANGE_INJECTOR ID=2")).operations = [⟨1, []⟩] ∧
    parse_finalize ⟨none, [], false, [], some ⟨2, []⟩, [⟨1, []⟩]⟩ = [⟨1, []⟩] := by
  constructor
  · exact C5_append_behaviour.1 (fun _ => none) ⟨none, [], false, [], some ⟨1, []⟩, []⟩
      (chars "; CHANGE_INJECTOR ID=2") ⟨1, []⟩ rfl (by decide) (by decide) (by decide)
      (by decide) rfl
  · exact C5_append_behaviour.2 ⟨none, [], false, [], some ⟨2, []⟩, [⟨1, []⟩]⟩ ⟨2, []⟩ rfl rfl

/-- C6 (counterexample): `modificar_altura_activacion` does not keep the line
count: on the two-line program `[descend-tagged line, M8]` it returns three
lines — the original descend line is re-emitted after the `M8`
(gcode_processor.py lines 257-258) — contradicting the claim that the output
has exactly as many lines as the input. -/
theorem C6_counterexample :
    (modificar_altura_activacion
        [chars "G1 X1.000 Y1.000 Z2.000 ; z_down", chars "M8"] 1).map List.length
      = some 3 ∧
    ([chars "G1 X1.000 Y1.000 Z2.000 ; z_down", chars "M8"] : List (List Char)).length = 2 := by
  refine ⟨by with_unfolding_all decide, by decide⟩

/-- helper: while no z_down line is pending, lines without a descend tag pass
through `modGo` unchanged. -/
theorem modGo_passthrough (delta : ℚ) (ls : List (List Char))
    (h : ∀ l ∈ ls, containsSub (chars "; z_down") l = false) :
    ∀ updated rest,
      modGo delta updated none (ls ++ rest) = modGo delta (updated ++ ls) none rest := by
  induction ls with
  | nil => intro updated rest; simp
  | cons l t ih =>
      intro updated rest
      have h1 : containsSub (chars "; z_down") l = false := h l (by simp)
      have ht : ∀ x ∈ t, containsSub (chars "; z_down") x = false := fun x hx => h x (by simp [hx])
      simp only [List.cons_append, modGo, h1, Bool.false_eq_true, if_false, List.append_eq]
      rw [ih ht (updated ++ [l]) rest]
      simp

/-- helper: `modGo` on a remainder with no descend tags returns the
accumulator followed by that remainder. -/
theorem modGo_final (delta : ℚ) (ls : List (List Char))
    (h : ∀ l ∈ ls, containsSub (chars "; z_down") l = false) (updated : List (List Char)) :
    modGo delta updated none ls = some (updated ++ ls) := by
  have := modGo_passthrough delta ls h updated []
  rw [List.append_nil] at this
  rw [this]
  rfl

/-- C6 (amended): when the descend-tagged line is followed by its actuator
engage line, the output modifies the line immediately preceding the `M8`
(adding delta to its Z and appending — not replacing — the
`; activation_height` tag after the kept `; z_down` tag) and then re-emits
the original descend line after the `M8`, so the output gains one line per
fired activation; lines outside such a pair pass through unchanged in
order. -/
theorem C6_activation_rewrite (delta : ℚ) (pre post : List (List Char))
    (zd m8line p tok : List Char) (zv : ℚ) (r : List Char)
    (hpre : ∀ l ∈ pre, containsSub (chars "; z_down") l = false)
    (hpost : ∀ l ∈ post, containsSub (chars "; z_down") l = false)
    (hzd1 : containsSub (chars "; z_down") zd = true)
    (hzd2 : containsSub (chars "M8") zd = false)
    (hm1 : containsSub (chars "M8") m8line = true)
    (hm2 : containsSub (chars "; z_down") m8line = false)
    (hz : findZStrict zd = some (p, tok, zv, r)) :
    modificar_altura_activacion (pre ++ zd :: m8line :: post) delta =
      some (pre ++ (subZStrictAll ('Z' :: pyStrFloat (zv + delta)) zd ++ chars " ; activation_height")
            :: m8line :: zd :: post) := by
  unfold modificar_altura_activacion
  rw [modGo_passthrough delta pre hpre [] (zd :: m8line :: post), List.nil_append]
  simp only [modGo, hzd1, hzd2, hm1, hm2, Bool.false_eq_true, if_false, if_true]
  rw [List.getLast?_concat]
  simp only [hz, List.dropLast_concat]
  rw [modGo_final delta post hpost]
  simp

/-- witness for C6_activation_rewrite: one descend/M8 pair, delta = 0.5. -/
theorem C6_activation_rewrite_witness :
    modificar_altura_activacion
        [chars "G1 X2.000 Y2.000 Z4.000 ; z_down", chars "M8"] (mkRat 1 2) =
      some [chars "G1 X2.000 Y2.000 Z4.5 ; z_down ; activation_height", chars "M8",
            chars "G1 X2.000 Y2.000 Z4.000 ; z_down"] :=
  (C6_activation_rewrite (mkRat 1 2) [] [] (chars "G1 X2.000 Y2.000 Z4.000 ; z_down")
      (chars "M8") (chars "G1 X2.000 Y2.000 ") (chars "4.000") 4 (chars " ; z_down")
      (by simp) (by simp) (by with_unfolding_all decide) (by with_unfolding_all decide)
      (by with_unfolding_all decide) (by with_unfolding_all decide)
      (by with_unfolding_all decide)).trans (by with_unfolding_all decide)

/-- C2 (counterexample): `_wait_for_idle` has no timeout: with the job
running, not paused, and a machine state that never reads `Idle` (e.g. the
controller stuck reporting `Run`), no poll ever satisfies the loop's exit
condition, so the wait never terminates — contradicting the claim that every
position/Idle confirmation wait is bounded by a timeout. -/
theorem C2_counterexample :
    ¬ wait_for_idle_terminates (fun _ => ⟨chars "Run", true, false, 0, 0⟩) := by
  rintro ⟨i, h | h⟩
  · revert h; dsimp only; decide
  · revert h; dsimp only; decide

/-- C2 (amended): the waits that do have timeouts are bounded: whatever the
observed states and frames, `_wait_for_pos_and_idle` (5 s timeout, 0.01 s
sleep) exits within 501 polls, `_get_main_frame_sync` (3 s counter, 0.05 s
steps) within 61 polls, and `_get_new_laser_frame` (2 s timeout, 0.005 s
sleep) within 402 polls, returning False/None on expiry so the calling step
logs a warning and proceeds; the bare Idle wait `_wait_for_idle` is the one
hardware wait without a timeout. -/
theorem C2_bounded_timeouts :
    (∀ (tr : ℕ → PollObs) (elapsed : ℕ → ℚ) (tx ty : ℚ),
        (∀ i, elapsed i + 1/100 ≤ elapsed (i + 1)) → 0 ≤ elapsed 0 →
        ∃ i, i ≤ 501 ∧ wait_for_pos_and_idle_exit tr elapsed tx ty (1/10) 5 i) ∧
    (∀ (frame : ℕ → Option ℕ) (tr : ℕ → PollObs),
        ∃ i, i ≤ 60 ∧ get_main_frame_exit frame tr i) ∧
    (∀ (frame : ℕ → Option ℕ) (tr : ℕ → PollObs) (elapsed : ℕ → ℚ),
        (∀ i, elapsed i + 1/200 ≤ elapsed (i + 1)) → 0 ≤ elapsed 0 →
        ∃ i, i ≤ 401 ∧ get_new_laser_frame_exit frame tr elapsed i) := by
  have grow : ∀ (e : ℕ → ℚ) (step : ℚ), (∀ i, e i + step ≤ e (i + 1)) →
      ∀ n : ℕ, e 0 + n * step ≤ e n := by
    intro e step hs n
    induction n with
    | zero => simp
    | succ n ih =>
        have := hs n
        push_cast
        nlinarith [hs n, ih]
  refine ⟨?_, ?_, ?_⟩
  · intro tr elapsed tx ty hmono h0
    refine ⟨501, le_refl _, Or.inr (Or.inr ?_)⟩
    have := grow elapsed (1/100) hmono 501
    have h1 : (5 : ℚ) < 0 + 501 * (1/100) := by norm_num
    calc (5 : ℚ) < 0 + 501 * (1/100) := h1
      _ ≤ elapsed 0 + 501 * (1/100) := by linarith
      _ ≤ elapsed 501 := this
  · intro frame tr
    refine ⟨60, le_refl _, Or.inr (Or.inr ?_)⟩
    norm_num
  · intro frame tr elapsed hmono h0
    refine ⟨401, le_refl _, Or.inr (Or.inr ?_)⟩
    have := grow elapsed (1/200) hmono 401
    have h1 : (2 : ℚ) < 0 + 401 * (1/200) := by norm_num
    calc (2 : ℚ) < 0 + 401 * (1/200) := h1
      _ ≤ elapsed 0 + 401 * (1/200) := by linarith
      _ ≤ elapsed 401 := this

/-- witness for C2_bounded_timeouts: concrete adverse traces (state `Run`
forever, no frame ever, wall clock advancing exactly one sleep per poll)
still exit within the stated bounds. -/
theorem C2_bounded_timeouts_witness :
    (∃ i, i ≤ 501 ∧ wait_for_pos_and_idle_exit (fun _ => ⟨chars "Run", true, false, 0, 0⟩)
        (fun i => i * (1/100)) 7 7 (1/10) 5 i) ∧
    (∃ i, i ≤ 60 ∧ get_main_frame_exit (fun _ => none) (fun _ => ⟨chars "Run", true, false, 0, 0⟩) i) ∧
    (∃ i, i ≤ 401 ∧ get_new_laser_frame_exit (fun _ => none)
        (fun _ => ⟨chars "Run", true, false, 0, 0⟩) (fun i => i * (1/200)) i) :=
  ⟨C2_bounded_timeouts.1 _ (fun i => i * (1/100)) 7 7
      (fun i => by push_cast; ring_nf; exact le_refl _) (by norm_num),
   C2_bounded_timeouts.2.1 _ _,
   C2_bounded_timeouts.2.2 _ _ (fun i => i * (1/200))
      (fun i => by push_cast; ring_nf; exact le_refl _) (by norm_num)⟩

/-- helper: the foldl-style minimum is an element of the list. -/
theorem foldl_min_mem : ∀ (xs : List ℚ) (x : ℚ), xs.foldl min x ∈ x :: xs := by
  intro xs
  induction xs with
  | nil => intro x; simp
  | cons y ys ih =>
      intro x
      simp only [List.foldl_cons]
      rcases List.mem_cons.1 (ih (min x y)) with h | h
      · rcases min_choice x y with hm | hm
        · rw [h, hm]; simp
        · rw [h, hm]; simp
      · simp [h]

/-- helper: the foldl-style minimum is a lower bound. -/
theorem foldl_min_le : ∀ (xs : List ℚ) (x : ℚ), ∀ z ∈ x :: xs, xs.foldl min x ≤ z := by
  intro xs
  induction xs with
  | nil => intro x z hz; simp at hz; simp [hz]
  | cons y ys ih =>
      intro x z hz
      simp only [List.foldl_cons]
      have hseed : List.foldl min (min x y) ys ≤ min x y := ih (min x y) (min x y) (by simp)
      rcases List.mem_cons.1 hz with rfl | h
      · exact hseed.trans (min_le_left _ _)
      · rcases List.mem_cons.1 h with rfl | h2
        · exact hseed.trans (min_le_right _ _)
        · exact ih (min x y) z (List.mem_cons.2 (Or.inr h2))

/-- helper: the foldl-style maximum is an element of the list. -/
theorem foldl_max_mem : ∀ (xs : List ℚ) (x : ℚ), xs.foldl max x ∈ x :: xs := by
  intro xs
  induction xs with
  | nil => intro x; simp
  | cons y ys ih =>
      intro x
      simp only [List.foldl_cons]
      rcases List.mem_cons.1 (ih (max x y)) with h | h
      · rcases max_choice x y with hm | hm
        · rw [h, hm]; simp
        · rw [h, hm]; simp
      · simp [h]

/-- helper: the foldl-style maximum is an upper bound. -/
theorem foldl_max_ge : ∀ (xs : List ℚ) (x : ℚ), ∀ z ∈ x :: xs, z ≤ xs.foldl max x := by
  intro xs
  induction xs with
  | nil => intro x z hz; simp at hz; simp [hz]
  | cons y ys ih =>
      intro x z hz
      simp only [List.foldl_cons]
      have hseed : max x y ≤ List.foldl max (max x y) ys := ih (max x y) (max x y) (by simp)
      rcases List.mem_cons.1 hz with rfl | h
      · exact (le_max_left _ _).trans hseed
      · rcases List.mem_cons.1 h with rfl | h2
        · exact (le_max_right _ _).trans hseed
        · exact ih (max x y) z (List.mem_cons.2 (Or.inr h2))

/-- C8: ComputeZThreshold selects the z values within `spacing` of the floor
height when any exist, else falls back to all z values; an empty sample list
yields 0.0, otherwise the result is `min + fraction * (max - min)` of the
selected set; and on the spec's test vector `[(0,0,0),(0,0,10)]`, floor 0,
spacing 20, fraction 0.5 the threshold is 5.0. -/
theorem C8_z_threshold :
    (∀ (puntos : List (ℚ × ℚ × ℚ)) (piso spacing frac : ℚ), puntos = [] →
        calcular_z_umbral puntos piso spacing frac = 0) ∧
    (∀ (puntos : List (ℚ × ℚ × ℚ)) (piso spacing frac : ℚ),
        ((puntos.filter (fun p => |p.2.2 - piso| ≤ spacing)).map (fun p => p.2.2)) ≠ [] →
        ∃ zmin zmax,
          zmin ∈ (puntos.filter (fun p => |p.2.2 - piso| ≤ spacing)).map (fun p => p.2.2) ∧
          (∀ z ∈ (puntos.filter (fun p => |p.2.2 - piso| ≤ spacing)).map (fun p => p.2.2), zmin ≤ z) ∧
          zmax ∈ (puntos.filter (fun p => |p.2.2 - piso| ≤ spacing)).map (fun p => p.2.2) ∧
          (∀ z ∈ (puntos.filter (fun p => |p.2.2 - piso| ≤ spacing)).map (fun p => p.2.2), z ≤ zmax) ∧
          calcular_z_umbral puntos piso spacing frac = zmin + frac * (zmax - zmin)) ∧
    (∀ (puntos : List (ℚ × ℚ × ℚ)) (piso spacing frac : ℚ),
        ((puntos.filter (fun p => |p.2.2 - piso| ≤ spacing)).map (fun p => p.2.2)) = [] →
        puntos ≠ [] →
        ∃ zmin zmax,
          zmin ∈ puntos.map (fun p => p.2.2) ∧ (∀ z ∈ puntos.map (fun p => p.2.2), zmin ≤ z) ∧
          zmax ∈ puntos.map (fun p => p.2.2) ∧ (∀ z ∈ puntos.map (fun p => p.2.2), z ≤ zmax) ∧
          calcular_z_umbral puntos piso spacing frac = zmin + frac * (zmax - zmin)) ∧
    calcular_z_umbral [(0, 0, 0), (0, 0, 10)] 0 20 (mkRat 1 2) = 5 := by
  refine ⟨?_, ?_, ?_, by with_unfolding_all decide⟩
  · intro puntos piso spacing frac hnil
    subst hnil
    rfl
  · intro puntos piso spacing frac hne
    rcases hc : (puntos.filter (fun p => |p.2.2 - piso| ≤ spacing)).map (fun p => p.2.2) with
      _ | ⟨z, zs⟩
    · exact absurd hc hne
    · refine ⟨listMinQ (z :: zs), listMaxQ (z :: zs), ?_, ?_, ?_, ?_, ?_⟩
      · rw [hc]; exact foldl_min_mem zs z
      · rw [hc]; exact foldl_min_le zs z
      · rw [hc]; exact foldl_max_mem zs z
      · rw [hc]; exact foldl_max_ge zs z
      · unfold calcular_z_umbral
        simp only [hc]
        rfl
  · intro puntos piso spacing frac hemp hne
    rcases hp : puntos.map (fun p => p.2.2) with _ | ⟨z, zs⟩
    · exact absurd (List.map_eq_nil_iff.1 hp) hne
    · refine ⟨listMinQ (z :: zs), listMaxQ (z :: zs), ?_, ?_, ?_, ?_, ?_⟩
      · rw [hp]; exact foldl_min_mem zs z
      · rw [hp]; exact foldl_min_le zs z
      · rw [hp]; exact foldl_max_mem zs z
      · rw [hp]; exact foldl_max_ge zs z
      · unfold calcular_z_umbral
        simp only [hemp, hp]
        rfl

/-- witness for C8_z_threshold: the empty list, the spec's test vector (its
near-set is non-empty), and a sample whose only point is far from the floor
(near-set empty, full fallback). -/
theorem C8_z_threshold_witness :
    calcular_z_umbral [] 0 10 (mkRat 3 5) = 0 ∧
    (∃ zmin zmax,
      zmin ∈ (([(0, 0, 0), (0, 0, 10)] : List (ℚ × ℚ × ℚ)).filter
          (fun p => |p.2.2 - 0| ≤ 20)).map (fun p => p.2.2) ∧
      (∀ z ∈ (([(0, 0, 0), (0, 0, 10)] : List (ℚ × ℚ × ℚ)).filter
          (fun p => |p.2.2 - 0| ≤ 20)).map (fun p => p.2.2), zmin ≤ z) ∧
      zmax ∈ (([(0, 0, 0), (0, 0, 10)] : List (ℚ × ℚ × ℚ)).filter
          (fun p => |p.2.2 - 0| ≤ 20)).map (fun p => p.2.2) ∧
      (∀ z ∈ (([(0, 0, 0), (0, 0, 10)] : List (ℚ × ℚ × ℚ)).filter
          (fun p => |p.2.2 - 0| ≤ 20)).map (fun p => p.2.2), z ≤ zmax) ∧
      calcular_z_umbral [(0, 0, 0), (0, 0, 10)] 0 20 (mkRat 1 2) = zmin + mkRat 1 2 * (zmax - zmin)) ∧
    (∃ zmin zmax,
      zmin ∈ ([((0 : ℚ), (0 : ℚ), (100 : ℚ))] : List (ℚ × ℚ × ℚ)).map (fun p => p.2.2) ∧
      (∀ z ∈ ([((0 : ℚ), (0 : ℚ), (100 : ℚ))] : List (ℚ × ℚ × ℚ)).map (fun p => p.2.2), zmin ≤ z) ∧
      zmax ∈ ([((0 : ℚ), (0 : ℚ), (100 : ℚ))] : List (ℚ × ℚ × ℚ)).map (fun p => p.2.2) ∧
      (∀ z ∈ ([((0 : ℚ), (0 : ℚ), (100 : ℚ))] : List (ℚ × ℚ × ℚ)).map (fun p => p.2.2), z ≤ zmax) ∧
      calcular_z_umbral [(0, 0, 100)] 0 1 (mkRat 3 5) = zmin + mkRat 3 5 * (zmax - zmin)) :=
  ⟨C8_z_threshold.1 [] 0 10 (mkRat 3 5) rfl,
   C8_z_threshold.2.1 [(0, 0, 0), (0, 0, 10)] 0 20 (mkRat 1 2) (by with_unfolding_all decide),
   C8_z_threshold.2.2.1 [(0, 0, 100)] 0 1 (mkRat 3 5) (by with_unfolding_all decide)
     (by decide)⟩

/-- helper: `find?` only depends on the predicate's values on the list. -/
theorem findQ_congr {α : Type} (p q : α → Bool) :
    ∀ l : List α, (∀ a ∈ l, p a = q a) → l.find? p = l.find? q := by
  intro l
  induction l with
  | nil => intro _; rfl
  | cons a t ih =>
      intro h
      have ha := h a (by simp)
      cases hq : q a
      · rw [List.find?_cons_of_neg _ (by simp [ha, hq]), List.find?_cons_of_neg _ (by simp [hq])]
        exact ih (fun b hb => h b (by simp [hb]))
      · rw [List.find?_cons_of_pos _ (by simp [ha, hq]), List.find?_cons_of_pos _ (by simp [hq])]

/-- helper: a non-empty list has a key-minimal element. -/
theorem exists_min_elem {α : Type} (key : α → ℚ) :
    ∀ l : List α, l ≠ [] → ∃ a ∈ l, ∀ b ∈ l, key a ≤ key b := by
  intro l
  induction l with
  | nil => intro h; exact absurd rfl h
  | cons x t ih =>
      intro _
      rcases eq_or_ne t [] with rfl | hne
      · refine ⟨x, by simp, ?_⟩
        intro b hb
        simp at hb
        simp [hb]
      · obtain ⟨m, hm, hmin⟩ := ih hne
        by_cases hx : key x ≤ key m
        · refine ⟨x, by simp, ?_⟩
          intro b hb
          rcases List.mem_cons.1 hb with rfl | hb
          · exact le_refl _
          · exact hx.trans (hmin b hb)
        · refine ⟨m, by simp [hm], ?_⟩
          intro b hb
          rcases List.mem_cons.1 hb with rfl | hb
          · exact le_of_not_le hx
          · exact hmin b hb

/-- helper: `firstMinP` succeeds on a non-empty list. -/
theorem firstMinP_isSome {α : Type} (key : α → ℚ) (l : List α) (h : l ≠ []) :
    (firstMinP key l).isSome := by
  obtain ⟨a, ha, hmin⟩ := exists_min_elem key l h
  unfold firstMinP
  rw [List.find?_isSome]
  refine ⟨a, ha, ?_⟩
  simp only [List.all_eq_true]
  intro b hb
  exact decide_eq_true (hmin b hb)

/-- helper: a head that some later element strictly beats does not change
the first key-minimal element. -/
theorem firstMinP_cons_skip {α : Type} (key : α → ℚ) (c : α) (l : List α)
    (hbeat : ∃ b ∈ l, key b < key c) :
    firstMinP key (c :: l) = firstMinP key l := by
  obtain ⟨b0, hb0, hlt⟩ := hbeat
  unfold firstMinP
  have hc : ((c :: l).all (fun b => decide (key c ≤ key b))) ≠ true := by
    intro hall
    rw [List.all_eq_true] at hall
    exact absurd (of_decide_eq_true (hall b0 (by simp [hb0]))) (not_le.2 hlt)
  rw [List.find?_cons_of_neg _ (by simpa using hc)]
  refine findQ_congr _ _ l (fun a ha => ?_)
  rw [List.all_cons]
  cases hp : l.all (fun b => decide (key a ≤ key b))
  · simp
  · have hab : key a ≤ key b0 := of_decide_eq_true ((List.all_eq_true.1 hp) b0 hb0)
    have hac : key a ≤ key c := le_of_lt (lt_of_le_of_lt hab hlt)
    simp [hac]

/-- helper: a second element at least as large as the head does not change
the first key-minimal element. -/
theorem firstMinP_cons_cons {α : Type} (key : α → ℚ) (c d : α) (l : List α)
    (hcd : key c ≤ key d) :
    firstMinP key (c :: d :: l) = firstMinP key (c :: l) := by
  have pq : ∀ a : α,
      ((c :: d :: l).all (fun b => decide (key a ≤ key b))) =
        ((c :: l).all (fun b => decide (key a ≤ key b))) := by
    intro a
    simp only [List.all_cons]
    cases hac : decide (key a ≤ key c)
    · simp
    · have had : key a ≤ key d := (of_decide_eq_true hac).trans hcd
      simp [had]
  unfold firstMinP
  cases hpc : ((c :: d :: l).all (fun b => decide (key c ≤ key b)))
  · have hl : l.all (fun b => decide (key c ≤ key b)) = false := by
      by_contra hco
      rw [Bool.not_eq_false] at hco
      rw [List.all_cons, List.all_cons, hco] at hpc
      simp [hcd] at hpc
    have hpd : ((c :: d :: l).all (fun b => decide (key d ≤ key b))) = false := by
      cases hdc : decide (key d ≤ key c)
      · simp only [List.all_cons, hdc, Bool.false_and]
      · have heq : key c = key d := le_antisymm hcd (of_decide_eq_true hdc)
        have : l.all (fun b => decide (key d ≤ key b)) = false := by
          rw [show (fun b => decide (key d ≤ key b)) = (fun b => decide (key c ≤ key b)) from
            funext fun b => by rw [heq]]
          exact hl
        simp only [List.all_cons, this, Bool.and_false]
    have hpc2 : ((c :: l).all (fun b => decide (key c ≤ key b))) = false := by
      simp only [List.all_cons, hl, Bool.and_false]
    rw [List.find?_cons_of_neg _ (by simp [hpc]), List.find?_cons_of_neg _ (by simp [hpd]),
        List.find?_cons_of_neg _ (by simp [hpc2])]
    exact findQ_congr _ _ l (fun a _ => pq a)
  · have hpc2 : ((c :: l).all (fun b => decide (key c ≤ key b))) = true := (pq c) ▸ hpc
    rw [List.find?_cons_of_pos _ (by simp [hpc]), List.find?_cons_of_pos _ (by simp [hpc2])]

/-- helper: Python's running-best fold computes the first key-minimal
element (current best wins ties, so the earliest minimum survives). -/
theorem pyMinBy_eq_firstMinP {α : Type} (key : α → ℚ) :
    ∀ (cs : List α) (c : α), pyMinBy key c cs = (firstMinP key (c :: cs)).getD c := by
  intro cs
  induction cs with
  | nil =>
      intro c
      simp [pyMinBy, firstMinP, List.find?]
  | cons d t ih =>
      intro c
      simp only [pyMinBy]
      by_cases hlt : key d < key c
      · rw [if_pos hlt, ih d,
            firstMinP_cons_skip key c (d :: t) ⟨d, by simp, hlt⟩]
        have hs := firstMinP_isSome key (d :: t) (by simp)
        cases ho : firstMinP key (d :: t) with
        | some m => rfl
        | none => rw [ho] at hs; simp at hs
      · rw [if_neg hlt, ih c, firstMinP_cons_cons key c d t (not_lt.1 hlt)]

/-- helper: `pyMinBy` only depends on the order its key induces. -/
theorem pyMinBy_congr {α : Type} (k1 k2 : α → ℚ)
    (h : ∀ a b : α, k1 a < k1 b ↔ k2 a < k2 b) :
    ∀ (cs : List α) (c : α), pyMinBy k1 c cs = pyMinBy k2 c cs := by
  intro cs
  induction cs with
  | nil => intro c; rfl
  | cons d t ih =>
      intro c
      simp only [pyMinBy]
      by_cases hc : k2 d < k2 c
      · rw [if_pos ((h d c).mpr hc), if_pos hc]
        exact ih d
      · rw [if_neg (fun hh => hc ((h d c).mp hh)), if_neg hc]
        exact ih c

set_option maxHeartbeats 1600000 in
/-- C7: NearestSample computes exactly the spec's description — the
candidate set is the samples with z above the threshold when a threshold is
given and that filter is non-empty, else all samples; an empty candidate set
yields (0,0,0); otherwise the Euclidean-nearest candidate to (x,y) with ties
broken by first-encountered order — provided `rt` (math.sqrt) is strictly
monotone; and on the spec's vector `[(0,0,1),(10,10,9)]` with threshold 5,
NearestSample(0,0) returns (10,10,9). -/
theorem C7_nearest_sample (rt : ℚ → ℚ) (hmono : ∀ a b : ℚ, rt a < rt b ↔ a < b) :
    (∀ (x y : ℚ) (samples : List (ℚ × ℚ × ℚ)) (threshold : Option ℚ),
        find_closest_coordinate rt x y samples threshold =
          nearestSampleSpec x y samples threshold) ∧
    find_closest_coordinate rt 0 0 [(0, 0, 1), (10, 10, 9)] (some 5) = (10, 10, 9) := by
  constructor
  · intro x y samples threshold
    unfold find_closest_coordinate nearestSampleSpec
    cases hc : candidatos samples threshold with
    | nil => rfl
    | cons c cs =>
        dsimp only
        rw [pyMinBy_congr (fun c => rt ((c.1 - x) ^ 2 + (c.2.1 - y) ^ 2))
              (fun c => (c.1 - x) ^ 2 + (c.2.1 - y) ^ 2) (fun a b => hmono _ _) cs c,
            pyMinBy_eq_firstMinP]
        have hs := firstMinP_isSome (fun c : ℚ × ℚ × ℚ => (c.1 - x) ^ 2 + (c.2.1 - y) ^ 2)
          (c :: cs) (by simp)
        cases ho : firstMinP (fun c : ℚ × ℚ × ℚ => (c.1 - x) ^ 2 + (c.2.1 - y) ^ 2) (c :: cs) with
        | some m => rfl
        | none => rw [ho] at hs; simp at hs
  · have hcand : candidatos [((0:ℚ), (0:ℚ), (1:ℚ)), (10, 10, 9)] (some 5) =
        [((10:ℚ), (10:ℚ), (9:ℚ))] := by with_unfolding_all decide
    unfold find_closest_coordinate
    rw [hcand]
    rfl

/-- witness for C7_nearest_sample: the identity as a strictly monotone model
of sqrt, the spec's filtered test vector, and a singleton refinement
instance. -/
theorem C7_nearest_sample_witness :
    find_closest_coordinate (fun q : ℚ => q) 0 0 [(0, 0, 1), (10, 10, 9)] (some 5) = (10, 10, 9) ∧
    find_closest_coordinate (fun q : ℚ => q) 1 2 [(3, 4, 5)] none =
      nearestSampleSpec 1 2 [(3, 4, 5)] none :=
  ⟨(C7_nearest_sample (fun q => q) (fun _ _ => Iff.rfl)).2,
   (C7_nearest_sample (fun q => q) (fun _ _ => Iff.rfl)).1 1 2 [(3, 4, 5)] none⟩

/-! ## Bridges between the kernel-evaluable arithmetic and Mathlib's -/

/-- `divQ` is ordinary rational division. -/
theorem divQ_eq (a b : ℚ) : divQ a b = a / b := by
  rw [divQ, ← Rat.inv_def', div_eq_mul_inv]

/-- `floorQ` is the floor function. -/
theorem floorQ_eq (q : ℚ) : floorQ q = ⌊q⌋ := by
  rw [Rat.floor_def]; rfl

theorem mkRat_half : (mkRat 1 2 : ℚ) = 1 / 2 := by
  rw [Rat.mkRat_eq_div 1 2]; norm_num

theorem mkRat_eps : (mkRat 1 100000 : ℚ) = 1 / 100000 := by
  rw [Rat.mkRat_eq_div 1 100000]; norm_num

/-- round-half-to-even lands within 1/2 of its argument. -/
theorem rhalfEven_abs (q : ℚ) : |(rhalfEven q : ℚ) - q| ≤ 1 / 2 := by
  have h1 : ((floorQ q : ℤ) : ℚ) ≤ q := by rw [floorQ_eq]; exact Int.floor_le q
  have h2 : q < ((floorQ q : ℤ) : ℚ) + 1 := by rw [floorQ_eq]; exact Int.lt_floor_add_one q
  unfold rhalfEven
  rw [mkRat_half]
  dsimp only
  split
  · rw [abs_le]; constructor <;> linarith
  · split
    · rw [abs_le]; push_cast; constructor <;> linarith
    · split
      · rw [abs_le]; constructor <;> linarith
      · rw [abs_le]; push_cast; constructor <;> linarith

/-- round-half-to-even of an integer is that integer. -/
theorem rhalfEven_intCast (n : ℤ) : rhalfEven (n : ℚ) = n := by
  have hf : floorQ (n : ℚ) = n := by rw [floorQ_eq, Int.floor_intCast]
  unfold rhalfEven
  rw [hf, mkRat_half, if_pos (by norm_num)]

/-- `round(·, 3)` lands within 1/2000 of its argument. -/
theorem round3_abs (q : ℚ) : |round3 q - q| ≤ 1 / 2000 := by
  have h := rhalfEven_abs (1000 * q)
  rw [round3, divQ_eq]
  rw [show (rhalfEven (1000 * q) : ℚ) / 1000 - q =
        ((rhalfEven (1000 * q) : ℚ) - 1000 * q) / 1000 by ring]
  rw [abs_div, show |(1000 : ℚ)| = 1000 by norm_num]
  linarith

/-- a value with at most 3 decimals is a fixed point of `round(·, 3)`. -/
theorem round3_exact (q : ℚ) (n : ℤ) (h : (1000 : ℚ) * q = n) : round3 q = q := by
  rw [round3, h, rhalfEven_intCast, divQ_eq]
  rw [eq_comm, eq_div_iff (by norm_num)]
  linarith

/-- conversely, a fixed point of `round(·, 3)` has at most 3 decimals. -/
theorem round3_fix (q : ℚ) (h : round3 q = q) :
    (1000 : ℚ) * q = (rhalfEven (1000 * q) : ℚ) := by
  rw [round3, divQ_eq, div_eq_iff (by norm_num : (1000 : ℚ) ≠ 0)] at h
  linarith

/-- the sum of two 3-decimal fixed points is again one. -/
theorem round3_add (x y : ℚ) (hx : round3 x = x) (hy : round3 y = y) :
    round3 (x + y) = x + y := by
  have h1 := round3_fix x hx
  have h2 := round3_fix y hy
  refine round3_exact (x + y) (rhalfEven (1000 * x) + rhalfEven (1000 * y)) ?_
  push_cast
  linarith

/-- translating by `dx`, rounding to 3 decimals, translating back and rounding
again recovers the original value to within 1/1000. -/
theorem roundtrip_bound (x dx : ℚ) :
    |round3 (round3 (x + dx) - dx) - x| ≤ 1 / 1000 := by
  have h1 := round3_abs (x + dx)
  have h2 := round3_abs (round3 (x + dx) - dx)
  have h3 : |round3 (x + dx) - dx - x| = |round3 (x + dx) - (x + dx)| := by
    congr 1; ring
  have h4 := abs_sub_le (round3 (round3 (x + dx) - dx)) (round3 (x + dx) - dx) x
  rw [h3] at h4
  linarith

/-! ## Decimal formatting parses back: `float(f"{q:.3f}") = round(q, 3)` -/

/-- two characters separated by a boolean character class are distinct. -/
theorem bool_pred_ne {p : Char → Bool} {c d : Char} (hc : p c = true) (hd : p d = false) :
    c ≠ d := by
  intro h; rw [h, hd] at hc; exact Bool.noConfusion hc

theorem digitVal_digitChar (n : ℕ) (h : n < 10) : digitVal (digitChar n) = n := by
  interval_cases n <;> decide

theorem isDigitC_digitChar (n : ℕ) (h : n < 10) : isDigitC (digitChar n) = true := by
  interval_cases n <;> decide

theorem natOfDigits_append_digit (ds : List Char) (c : Char) :
    natOfDigits (ds ++ [c]) = 10 * natOfDigits ds + digitVal c := by
  simp only [natOfDigits, List.foldl_append, List.foldl_cons, List.foldl_nil]

theorem natOfDigits_cons_zero (t : List Char) : natOfDigits ('0' :: t) = natOfDigits t := by
  simp only [natOfDigits, List.foldl_cons]
  norm_num [digitVal, show '0'.toNat = 48 from rfl]

/-- `natDigitsAux` with enough fuel prints `n` faithfully: value, nonemptiness
and digit-only characters. -/
theorem natDigitsAux_spec : ∀ fuel n, n < fuel →
    natOfDigits (natDigitsAux fuel n) = n ∧ natDigitsAux fuel n ≠ [] ∧
      ∀ c ∈ natDigitsAux fuel n, isDigitC c = true := by
  intro fuel
  induction fuel with
  | zero => intro n h; omega
  | succ f ih =>
      intro n h
      by_cases h10 : n < 10
      · simp only [natDigitsAux, if_pos h10]
        refine ⟨?_, by simp, ?_⟩
        · simp only [natOfDigits, List.foldl_cons, List.foldl_nil]
          rw [digitVal_digitChar n h10]
          omega
        · intro c hc
          rw [List.mem_singleton] at hc
          rw [hc]; exact isDigitC_digitChar n h10
      · have hdiv : n / 10 < f := by
          have := Nat.div_lt_self (by omega : 0 < n) (by omega : 1 < 10)
          omega
        obtain ⟨ihv, ihne, ihd⟩ := ih (n / 10) hdiv
        simp only [natDigitsAux, if_neg h10]
        refine ⟨?_, by simp, ?_⟩
        · rw [natOfDigits_append_digit, ihv, digitVal_digitChar (n % 10) (by omega)]
          omega
        · intro c hc
          rw [List.mem_append, List.mem_singleton] at hc
          rcases hc with hc | hc
          · exact ihd c hc
          · rw [hc]; exact isDigitC_digitChar (n % 10) (by omega)

/-- `natDigitsAux` of a number below `10^(k+1)` has at most `k+1` digits. -/
theorem natDigitsAux_len : ∀ fuel n k, n < fuel → n < 10 ^ (k + 1) →
    (natDigitsAux fuel n).length ≤ k + 1 := by
  intro fuel
  induction fuel with
  | zero => intro n k h; omega
  | succ f ih =>
      intro n k h hpow
      by_cases h10 : n < 10
      · simp only [natDigitsAux, if_pos h10, List.length_singleton]
        omega
      · have hk : 1 ≤ k := by
          by_contra hk
          have : k = 0 := by omega
          rw [this] at hpow
          simp at hpow
          omega
        have hdiv : n / 10 < f := by
          have := Nat.div_lt_self (by omega : 0 < n) (by omega : 1 < 10)
          omega
        have hpow2 : n / 10 < 10 ^ ((k - 1) + 1) := by
          rw [Nat.div_lt_iff_lt_mul (by norm_num : 0 < 10)]
          calc n < 10 ^ (k + 1) := hpow
            _ = 10 ^ ((k - 1) + 1) * 10 := by
                rw [← pow_succ]
                congr 1
                omega
        have := ih (n / 10) (k - 1) hdiv hpow2
        simp only [natDigitsAux, if_neg h10, List.length_append, List.length_singleton]
        omega

theorem natDigits_spec (n : ℕ) :
    natOfDigits (natDigits n) = n ∧ natDigits n ≠ [] ∧
      ∀ c ∈ natDigits n, isDigitC c = true :=
  natDigitsAux_spec (n + 1) n (Nat.lt_succ_self n)

/-- the 3-padded fractional block of `fmt3Q`: exactly three digit characters
recovering `n`. -/
theorem padZeros3_spec (n : ℕ) (h : n < 1000) :
    natOfDigits (padZeros 3 (natDigits n)) = n ∧
      (padZeros 3 (natDigits n)).length = 3 ∧
      ∀ c ∈ padZeros 3 (natDigits n), isDigitC c = true := by
  obtain ⟨hv, hne, hd⟩ := natDigits_spec n
  have hlen : (natDigits n).length ≤ 3 :=
    natDigitsAux_len (n + 1) n 2 (Nat.lt_succ_self n) (by omega)
  refine ⟨?_, ?_, ?_⟩
  · rw [padZeros]
    generalize 3 - (natDigits n).length = j
    induction j with
    | zero => simpa using hv
    | succ i ihj => simpa [List.replicate_succ, natOfDigits_cons_zero] using ihj
  · rw [padZeros, List.length_append, List.length_replicate]
    omega
  · intro c hc
    rw [padZeros, List.mem_append] at hc
    rcases hc with hc | hc
    · rw [List.eq_of_mem_replicate hc]; decide
    · exact hd c hc

/-- `takeWhile` over `fx ++ r` keeps exactly `fx` when `fx` is all in the
class and `r` opens outside it. -/
theorem takeWhile_all_append (cls : Char → Bool) (r : List Char)
    (h2 : ∀ c, r.head? = some c → cls c = false) :
    ∀ fx, (∀ c ∈ fx, cls c = true) → (fx ++ r).takeWhile cls = fx := by
  intro fx
  induction fx with
  | nil =>
      intro _
      cases r with
      | nil => rfl
      | cons c t =>
          simp only [List.nil_append]
          refine List.takeWhile_cons_of_neg ?_
          simp [h2 c rfl]
  | cons a t ih =>
      intro h1
      simp only [List.cons_append]
      rw [List.takeWhile_cons_of_pos (h1 a (List.mem_cons_self a t)),
        ih (fun c hc => h1 c (List.mem_cons_of_mem a hc))]

/-- `parseUFloat?` on an all-digit `nd ++ "." ++ frac` with `nd` nonempty. -/
theorem parseUFloat?_shape (nd frac : List Char) (hnd0 : nd ≠ [])
    (hndd : ∀ c ∈ nd, isDigitC c = true) (hfd : ∀ c ∈ frac, isDigitC c = true) :
    parseUFloat? (nd ++ '.' :: frac) =
      some ((natOfDigits nd : ℚ) + divQ (natOfDigits frac : ℚ) (10 ^ frac.length)) := by
  have hip : (nd ++ '.' :: frac).takeWhile isDigitC = nd :=
    takeWhile_all_append isDigitC ('.' :: frac)
      (by
        intro c hc
        rw [List.head?_cons, Option.some.injEq] at hc
        rw [← hc]; decide) nd hndd
  have hc1 : frac.all isDigitC = true := List.all_eq_true.mpr hfd
  have hc2 : nd.isEmpty = false := by
    cases nd with
    | nil => exact absurd rfl hnd0
    | cons a t => rfl
  unfold parseUFloat?
  dsimp only
  rw [hip, List.drop_left]
  simp only [hc1, hc2, Bool.false_and, Bool.not_false, Bool.true_and, if_true]

/-- a leading non-sign character sends `pyFloat?` straight to `parseUFloat?`. -/
theorem pyFloat?_cons_of_sign (c : Char) (l : List Char) (h1 : c ≠ '-') (h2 : c ≠ '+') :
    pyFloat? (c :: l) = parseUFloat? (c :: l) := by
  unfold pyFloat?
  split
  · rename_i rest heq
    injection heq with hc _
    exact absurd hc h1
  · rename_i rest heq
    injection heq with hc _
    exact absurd hc h2
  · rfl

/-- parsing the 3-decimal formatting recovers exactly `round(q, 3)`: the heart
of the Translate round trip. -/
theorem pyFloat?_fmt3Q (q : ℚ) : pyFloat? (fmt3Q q) = some (round3 q) := by
  set r := rhalfEven (1000 * q) with hr
  obtain ⟨hv1, hne1, hd1⟩ := natDigits_spec (r.natAbs / 1000)
  obtain ⟨hv2, hl2, hd2⟩ := padZeros3_spec (r.natAbs % 1000) (Nat.mod_lt _ (by norm_num))
  have hm : (1000 : ℚ) * ((r.natAbs / 1000 : ℕ) : ℚ) + ((r.natAbs % 1000 : ℕ) : ℚ) =
      ((r.natAbs : ℕ) : ℚ) := by
    exact_mod_cast Nat.div_add_mod r.natAbs 1000
  have hbody : parseUFloat? (natDigits (r.natAbs / 1000) ++
      '.' :: padZeros 3 (natDigits (r.natAbs % 1000))) =
      some (((r.natAbs : ℕ) : ℚ) / 1000) := by
    rw [parseUFloat?_shape _ _ hne1 hd1 hd2, hv1, hv2, hl2, divQ_eq]
    congr 1
    field_simp
    linarith
  by_cases hneg : r < 0
  · have hfq : fmt3Q q = '-' :: (natDigits (r.natAbs / 1000) ++
        '.' :: padZeros 3 (natDigits (r.natAbs % 1000))) := by
      unfold fmt3Q
      dsimp only
      rw [← hr, if_pos hneg]
      rfl
    have habs : ((r.natAbs : ℕ) : ℚ) = -(r : ℚ) := by
      rw [Int.cast_natAbs, Int.cast_abs]
      exact abs_of_neg (by exact_mod_cast hneg)
    rw [hfq]
    show (parseUFloat? _).map (fun v => -v) = _
    rw [hbody, Option.map_some']
    rw [round3, divQ_eq, ← hr, habs]
    ring
  · have hfq : fmt3Q q = natDigits (r.natAbs / 1000) ++
        '.' :: padZeros 3 (natDigits (r.natAbs % 1000)) := by
      unfold fmt3Q
      dsimp only
      rw [← hr, if_neg hneg]
      rfl
    have habs : ((r.natAbs : ℕ) : ℚ) = (r : ℚ) := by
      rw [Int.cast_natAbs, Int.cast_abs]
      exact abs_of_nonneg (by exact_mod_cast not_lt.mp hneg)
    obtain ⟨d, t, hdt⟩ : ∃ d t, natDigits (r.natAbs / 1000) = d :: t := by
      cases hnd : natDigits (r.natAbs / 1000) with
      | nil => exact absurd hnd hne1
      | cons d t => exact ⟨d, t, rfl⟩
    have hd : isDigitC d = true := hd1 d (hdt ▸ List.mem_cons_self d t)
    rw [hfq, hdt, List.cons_append,
      pyFloat?_cons_of_sign d _ (bool_pred_ne hd (by decide)) (bool_pred_ne hd (by decide)),
      ← List.cons_append, ← hdt, hbody, round3, divQ_eq, ← hr, habs]

/-! ## Shape lemmas for `findTok` / `subTokAll` (the X/Y coordinate regexes) -/

/-- no key character, no match. -/
theorem findTok_none_of (key : Char) (cls : Char → Bool) :
    ∀ s, (∀ c ∈ s, c ≠ key) → findTok key cls s = none := by
  intro s
  induction s with
  | nil => intro _; rfl
  | cons c t ih =>
      intro h
      unfold findTok
      rw [if_neg (h c (List.mem_cons_self c t)), ih (fun d hd => h d (List.mem_cons_of_mem c hd))]

/-- the first key with a nonempty class token behind it is found, splitting
the text as `pre ++ key ++ token ++ rest`. -/
theorem findTok_shape (key : Char) (cls : Char → Bool) (fx r : List Char)
    (hfx : fx ≠ []) (hfxc : ∀ c ∈ fx, cls c = true)
    (hr : ∀ c, r.head? = some c → cls c = false) :
    ∀ pre, (∀ c ∈ pre, c ≠ key) →
      findTok key cls (pre ++ key :: (fx ++ r)) = some (pre, fx, r) := by
  have htok : (fx ++ r).takeWhile cls = fx := takeWhile_all_append cls r hr fx hfxc
  intro pre
  induction pre with
  | nil =>
      intro _
      rw [List.nil_append]
      unfold findTok
      rw [if_pos rfl, htok]
      dsimp only
      rw [show fx.isEmpty = false by cases fx with
        | nil => exact absurd rfl hfx
        | cons a t => rfl]
      simp only [Bool.false_eq_true, if_false]
      rw [List.drop_left]
  | cons p ps ih =>
      intro h
      have hrec := ih (fun d hd => h d (List.mem_cons_of_mem p hd))
      rw [List.cons_append]
      unfold findTok
      rw [if_neg (h p (List.mem_cons_self p ps)), hrec]

/-- skipping exactly the length of a prefix resumes the scan after it. -/
theorem subTokGo_skip (key : Char) (cls : Char → Bool) (repl : List Char) :
    ∀ (l s : List Char), subTokGo key cls repl l.length (l ++ s) = subTokGo key cls repl 0 s := by
  intro l
  induction l with
  | nil => intro s; rfl
  | cons c t ih =>
      intro s
      simp only [List.cons_append, List.length_cons, subTokGo]
      exact ih s

/-- text without the key passes through the substitution unchanged. -/
theorem subTokGo_no_key (key : Char) (cls : Char → Bool) (repl : List Char) :
    ∀ s, (∀ c ∈ s, c ≠ key) → subTokGo key cls repl 0 s = s := by
  intro s
  induction s with
  | nil => intro _; rfl
  | cons c t ih =>
      intro h
      unfold subTokGo
      rw [if_neg (h c (List.mem_cons_self c t)), ih (fun d hd => h d (List.mem_cons_of_mem c hd))]

/-- a key-free prefix is copied verbatim by the substitution. -/
theorem subTokGo_pre (key : Char) (cls : Char → Bool) (repl : List Char) :
    ∀ pre s, (∀ c ∈ pre, c ≠ key) →
      subTokGo key cls repl 0 (pre ++ s) = pre ++ subTokGo key cls repl 0 s := by
  intro pre
  induction pre with
  | nil => intro s _; rfl
  | cons p ps ih =>
      intro s h
      rw [List.cons_append]
      conv_lhs => unfold subTokGo
      rw [if_neg (h p (List.mem_cons_self p ps)), ih s (fun d hd => h d (List.mem_cons_of_mem p hd))]
      rfl

/-- `re.sub` of the key-token pattern on `pre ++ key ++ token ++ rest` with a
single match: the match is replaced, everything else is kept. -/
theorem subTokAll_shape (key : Char) (cls : Char → Bool) (repl : List Char)
    (pre fx r : List Char) (hpre : ∀ c ∈ pre, c ≠ key)
    (hfx : fx ≠ []) (hfxc : ∀ c ∈ fx, cls c = true)
    (hr : ∀ c, r.head? = some c → cls c = false) (hrk : ∀ c ∈ r, c ≠ key) :
    subTokAll key cls repl (pre ++ key :: (fx ++ r)) = pre ++ repl ++ r := by
  have htok : (fx ++ r).takeWhile cls = fx := takeWhile_all_append cls r hr fx hfxc
  rw [subTokAll, subTokGo_pre key cls repl pre _ hpre]
  have hkey : subTokGo key cls repl 0 (key :: (fx ++ r)) = repl ++ r := by
    unfold subTokGo
    rw [if_pos rfl, htok]
    rw [show fx.isEmpty = false by cases fx with
      | nil => exact absurd rfl hfx
      | cons a t => rfl]
    simp only [Bool.false_eq_true, if_false]
    rw [subTokGo_skip key cls repl fx r, subTokGo_no_key key cls repl r hrk]
  rw [hkey, List.append_assoc]

/-! ## Character-set facts about the 3-decimal formatting -/

/-- every character of `fmt3Q q` is in the coordinate class `[-\d.]`. -/
theorem fmt3Q_classXY (q : ℚ) : ∀ c ∈ fmt3Q q, classXY c = true := by
  intro c hc
  unfold fmt3Q at hc
  dsimp only at hc
  obtain ⟨_, hne1, hd1⟩ := natDigits_spec ((rhalfEven (1000 * q)).natAbs / 1000)
  obtain ⟨_, _, hd2⟩ := padZeros3_spec ((rhalfEven (1000 * q)).natAbs % 1000)
    (Nat.mod_lt _ (by norm_num))
  rw [List.mem_append, List.mem_append] at hc
  rcases hc with (hc | hc) | hc
  · split at hc
    · rw [List.mem_singleton] at hc
      rw [hc]; decide
    · exact absurd hc (List.not_mem_nil c)
  · have := hd1 c hc
    simp [classXY, this]
  · rw [List.mem_cons] at hc
    rcases hc with hc | hc
    · rw [hc]; decide
    · have := hd2 c hc
      simp [classXY, this]

theorem fmt3Q_ne_nil (q : ℚ) : fmt3Q q ≠ [] := by
  unfold fmt3Q
  dsimp only
  intro h
  rw [List.append_assoc, List.append_eq_nil] at h
  exact List.cons_ne_nil '.' _ (List.append_eq_nil.mp h.2).2

/-- the coordinate class stays inside codes 45–57 (minus 47). -/
theorem toNat_range_of_classXY (c : Char) (h : classXY c = true) :
    45 ≤ c.toNat ∧ c.toNat ≤ 57 := by
  rw [classXY, Bool.or_eq_true, Bool.or_eq_true] at h
  rcases h with (h | h) | h
  · rw [isDigitC, Bool.and_eq_true, decide_eq_true_eq, decide_eq_true_eq] at h
    omega
  · rw [decide_eq_true_eq] at h
    rw [h]; decide
  · rw [decide_eq_true_eq] at h
    rw [h]; decide

/-- coordinate-class characters are untouched by `str.upper()`. -/
theorem toUpperC_eq_of_classXY (c : Char) (h : classXY c = true) : toUpperC c = c := by
  obtain ⟨_, h2⟩ := toNat_range_of_classXY c h
  unfold toUpperC
  rw [if_neg]
  rw [Bool.and_eq_true, decide_eq_true_eq, decide_eq_true_eq]
  omega

/-- coordinate-class characters are not whitespace. -/
theorem classXY_not_ws (c : Char) (h : classXY c = true) : isWS c = false := by
  obtain ⟨h1, h2⟩ := toNat_range_of_classXY c h
  rw [isWS]
  have hne : ∀ d : Char, d.toNat < 45 → c ≠ d := by
    intro d hd he
    rw [he] at h1
    omega
  simp only [Bool.or_eq_false_iff, decide_eq_false_iff_not]
  exact ⟨⟨⟨⟨⟨hne ' ' (by decide), hne '\t' (by decide)⟩, hne '\n' (by decide)⟩,
    hne '\r' (by decide)⟩, hne '\x0c' (by decide)⟩, hne '\x0b' (by decide)⟩

/-- `str.upper()` fixes a string of already-fixed characters. -/
theorem upper_eq_self (l : List Char) (h : ∀ c ∈ l, toUpperC c = c) : upper l = l := by
  rw [upper, List.map_congr_left h]
  simp

/-- `str.strip()` fixes a string with non-whitespace first and last character. -/
theorem strip_eq_self (l : List Char) (h1 : ∀ c, l.head? = some c → isWS c = false)
    (h2 : ∀ c, l.getLast? = some c → isWS c = false) : strip l = l := by
  have hdw : ∀ (m : List Char), (∀ c, m.head? = some c → isWS c = false) →
      m.dropWhile isWS = m := by
    intro m hm
    cases m with
    | nil => rfl
    | cons c t =>
        refine List.dropWhile_cons_of_neg ?_
        simp [hm c rfl]
  rw [strip, hdw l h1]
  rw [hdw l.reverse (by
    intro c hc
    rw [List.head?_reverse] at hc
    exact h2 c hc)]
  exact List.reverse_reverse l

/-! ## `sumar_offset_xy` on a line with one X and one Y coordinate -/

/-- `sumarLine` on `a ++ "X" ++ fx ++ mid ++ "Y" ++ fy ++ b`: both
coordinates are re-stamped freshly formatted with the offsets added, and
everything else survives verbatim. -/
theorem sumarLine_shape (dx dy x y : ℚ) (a fx mid fy b : List Char)
    (hax : ∀ c ∈ a, c ≠ 'X') (hay : ∀ c ∈ a, c ≠ 'Y')
    (hfx0 : fx ≠ []) (hfxc : ∀ c ∈ fx, classXY c = true) (hfxv : pyFloat? fx = some x)
    (hmx : ∀ c ∈ mid, c ≠ 'X') (hmy : ∀ c ∈ mid, c ≠ 'Y')
    (hmh : ∀ c, mid.head? = some c → classXY c = false)
    (hfy0 : fy ≠ []) (hfyc : ∀ c ∈ fy, classXY c = true) (hfyv : pyFloat? fy = some y)
    (hbx : ∀ c ∈ b, c ≠ 'X') (hby : ∀ c ∈ b, c ≠ 'Y')
    (hbh : ∀ c, b.head? = some c → classXY c = false) :
    sumarLine dx dy (a ++ 'X' :: (fx ++ (mid ++ 'Y' :: (fy ++ b)))) =
      some (a ++ 'X' :: (fmt3Q (x + dx) ++ (mid ++ 'Y' :: (fmt3Q (y + dy) ++ b)))) := by
  have hrY_head : ∀ c, (mid ++ 'Y' :: (fy ++ b)).head? = some c → classXY c = false := by
    cases mid with
    | nil =>
        intro c hc
        rw [List.nil_append, List.head?_cons, Option.some.injEq] at hc
        rw [← hc]; decide
    | cons m t =>
        intro c hc
        rw [List.cons_append, List.head?_cons, Option.some.injEq] at hc
        rw [← hc]
        exact hmh m rfl
  have hfy_ne : ∀ d : Char, classXY d = false → ∀ c ∈ fy, c ≠ d :=
    fun d hd c hc => bool_pred_ne (hfyc c hc) hd
  have hfmt_ne : ∀ (v : ℚ) (d : Char), classXY d = false → ∀ c ∈ fmt3Q v, c ≠ d :=
    fun v d hd c hc => bool_pred_ne (fmt3Q_classXY v c hc) hd
  have hrX_free : ∀ c ∈ mid ++ 'Y' :: (fy ++ b), c ≠ 'X' := by
    refine List.forall_mem_append.mpr ⟨hmx, List.forall_mem_cons.mpr ⟨by decide, ?_⟩⟩
    exact List.forall_mem_append.mpr ⟨hfy_ne 'X' (by decide), hbx⟩
  have hfindX : findTok 'X' classXY (a ++ 'X' :: (fx ++ (mid ++ 'Y' :: (fy ++ b)))) =
      some (a, fx, mid ++ 'Y' :: (fy ++ b)) :=
    findTok_shape 'X' classXY fx (mid ++ 'Y' :: (fy ++ b)) hfx0 hfxc hrY_head a hax
  have hsubX : subTokAll 'X' classXY ('X' :: fmt3Q (x + dx))
      (a ++ 'X' :: (fx ++ (mid ++ 'Y' :: (fy ++ b)))) =
      a ++ ('X' :: fmt3Q (x + dx)) ++ (mid ++ 'Y' :: (fy ++ b)) :=
    subTokAll_shape 'X' classXY ('X' :: fmt3Q (x + dx)) a fx (mid ++ 'Y' :: (fy ++ b))
      hax hfx0 hfxc hrY_head hrX_free
  have hpreY : ∀ c ∈ a ++ 'X' :: (fx ++ mid), c ≠ 'Y' := by
    refine List.forall_mem_append.mpr ⟨hay, List.forall_mem_cons.mpr ⟨by decide, ?_⟩⟩
    exact List.forall_mem_append.mpr ⟨fun c hc => bool_pred_ne (hfxc c hc) (by decide), hmy⟩
  have hfindY : findTok 'Y' classXY (a ++ 'X' :: (fx ++ (mid ++ 'Y' :: (fy ++ b)))) =
      some (a ++ 'X' :: (fx ++ mid), fy, b) := by
    rw [show a ++ 'X' :: (fx ++ (mid ++ 'Y' :: (fy ++ b))) =
      (a ++ 'X' :: (fx ++ mid)) ++ 'Y' :: (fy ++ b) by simp [List.append_assoc]]
    exact findTok_shape 'Y' classXY fy b hfy0 hfyc hbh _ hpreY
  have hpreY2 : ∀ c ∈ (a ++ ('X' :: fmt3Q (x + dx))) ++ mid, c ≠ 'Y' := by
    refine List.forall_mem_append.mpr ⟨List.forall_mem_append.mpr ⟨hay, ?_⟩, hmy⟩
    exact List.forall_mem_cons.mpr ⟨by decide, hfmt_ne (x + dx) 'Y' (by decide)⟩
  have hsubY : subTokAll 'Y' classXY ('Y' :: fmt3Q (y + dy))
      (a ++ ('X' :: fmt3Q (x + dx)) ++ (mid ++ 'Y' :: (fy ++ b))) =
      ((a ++ ('X' :: fmt3Q (x + dx))) ++ mid) ++ ('Y' :: fmt3Q (y + dy)) ++ b := by
    rw [show a ++ ('X' :: fmt3Q (x + dx)) ++ (mid ++ 'Y' :: (fy ++ b)) =
      ((a ++ ('X' :: fmt3Q (x + dx))) ++ mid) ++ 'Y' :: (fy ++ b) by simp [List.append_assoc]]
    exact subTokAll_shape 'Y' classXY ('Y' :: fmt3Q (y + dy)) _ fy b hpreY2 hfy0 hfyc hbh hby
  unfold sumarLine
  dsimp only
  rw [hfindX]
  dsimp only
  rw [hfxv]
  dsimp only
  rw [hfindY]
  dsimp only
  rw [hfyv]
  dsimp only
  rw [hsubX, hsubY]
  simp [List.append_assoc]

/-- C10 (Translate round trip): for every program line carrying one X and one
Y coordinate, Translate stamps back `x + dx` / `y + dy` formatted to 3
decimals and leaves everything else intact; applying Translate with `dx, dy`
and then with `-dx, -dy` recovers the numeric X and Y values to within
1/1000 (the composition of the two 3-decimal roundings), exactly when the
original values and the offsets have at most 3 decimals; lines without an X
or a Y coordinate match pass through each application unchanged. -/
theorem C10_translate_roundtrip :
    (∀ (dx dy : ℚ) (line : List Char), findTok 'X' classXY line = none →
      findTok 'Y' classXY line = none → sumarLine dx dy line = some line)
  ∧ (∀ (dx dy x y : ℚ) (a fx mid fy b : List Char),
      (∀ c ∈ a, c ≠ 'X') → (∀ c ∈ a, c ≠ 'Y') →
      fx ≠ [] → (∀ c ∈ fx, classXY c = true) → pyFloat? fx = some x →
      (∀ c ∈ mid, c ≠ 'X') → (∀ c ∈ mid, c ≠ 'Y') →
      (∀ c, mid.head? = some c → classXY c = false) →
      fy ≠ [] → (∀ c ∈ fy, classXY c = true) → pyFloat? fy = some y →
      (∀ c ∈ b, c ≠ 'X') → (∀ c ∈ b, c ≠ 'Y') →
      (∀ c, b.head? = some c → classXY c = false) →
      sumar_offset_xy [a ++ 'X' :: (fx ++ (mid ++ 'Y' :: (fy ++ b)))] dx dy =
        some [a ++ 'X' :: (fmt3Q (x + dx) ++ (mid ++ 'Y' :: (fmt3Q (y + dy) ++ b)))] ∧
      sumar_offset_xy [a ++ 'X' :: (fmt3Q (x + dx) ++ (mid ++ 'Y' :: (fmt3Q (y + dy) ++ b)))]
          (-dx) (-dy) =
        some [a ++ 'X' :: (fmt3Q (round3 (x + dx) - dx) ++
          (mid ++ 'Y' :: (fmt3Q (round3 (y + dy) - dy) ++ b)))] ∧
      pyFloat? (fmt3Q (round3 (x + dx) - dx)) = some (round3 (round3 (x + dx) - dx)) ∧
      |round3 (round3 (x + dx) - dx) - x| ≤ 1 / 1000 ∧
      |round3 (round3 (y + dy) - dy) - y| ≤ 1 / 1000)
  ∧ (∀ (dx dy x y : ℚ) (a mid b : List Char),
      (∀ c ∈ a, c ≠ 'X') → (∀ c ∈ a, c ≠ 'Y') →
      (∀ c ∈ mid, c ≠ 'X') → (∀ c ∈ mid, c ≠ 'Y') →
      (∀ c, mid.head? = some c → classXY c = false) →
      (∀ c ∈ b, c ≠ 'X') → (∀ c ∈ b, c ≠ 'Y') →
      (∀ c, b.head? = some c → classXY c = false) →
      round3 x = x → round3 y = y → round3 dx = dx → round3 dy = dy →
      sumar_offset_xy [a ++ 'X' :: (fmt3Q x ++ (mid ++ 'Y' :: (fmt3Q y ++ b)))] dx dy =
        some [a ++ 'X' :: (fmt3Q (x + dx) ++ (mid ++ 'Y' :: (fmt3Q (y + dy) ++ b)))] ∧
      sumar_offset_xy [a ++ 'X' :: (fmt3Q (x + dx) ++ (mid ++ 'Y' :: (fmt3Q (y + dy) ++ b)))]
          (-dx) (-dy) =
        some [a ++ 'X' :: (fmt3Q x ++ (mid ++ 'Y' :: (fmt3Q y ++ b)))]) := by
  have hone : ∀ (dx dy : ℚ) (l nl : List Char), sumarLine dx dy l = some nl →
      sumar_offset_xy [l] dx dy = some [nl] := by
    intro dx dy l nl h
    rw [sumar_offset_xy]
    show List.mapM.loop (sumarLine dx dy) [l] [] = some [nl]
    unfold List.mapM.loop
    rw [h]
    rfl
  refine ⟨?_, ?_, ?_⟩
  · intro dx dy line hX hY
    unfold sumarLine
    dsimp only
    rw [hX]
    dsimp only
    rw [hY]
  · intro dx dy x y a fx mid fy b hax hay hfx0 hfxc hfxv hmx hmy hmh hfy0 hfyc hfyv hbx hby hbh
    have h1 := sumarLine_shape dx dy x y a fx mid fy b
      hax hay hfx0 hfxc hfxv hmx hmy hmh hfy0 hfyc hfyv hbx hby hbh
    have h2 := sumarLine_shape (-dx) (-dy) (round3 (x + dx)) (round3 (y + dy))
      a (fmt3Q (x + dx)) mid (fmt3Q (y + dy)) b
      hax hay (fmt3Q_ne_nil (x + dx)) (fmt3Q_classXY (x + dx)) (pyFloat?_fmt3Q (x + dx))
      hmx hmy hmh (fmt3Q_ne_nil (y + dy)) (fmt3Q_classXY (y + dy)) (pyFloat?_fmt3Q (y + dy))
      hbx hby hbh
    rw [show round3 (x + dx) + -dx = round3 (x + dx) - dx from by ring,
      show round3 (y + dy) + -dy = round3 (y + dy) - dy from by ring] at h2
    exact ⟨hone dx dy _ _ h1, hone (-dx) (-dy) _ _ h2,
      pyFloat?_fmt3Q (round3 (x + dx) - dx), roundtrip_bound x dx, roundtrip_bound y dy⟩
  · intro dx dy x y a mid b hax hay hmx hmy hmh hbx hby hbh hx3 hy3 hdx3 hdy3
    have hfxv1 : pyFloat? (fmt3Q x) = some x := by rw [pyFloat?_fmt3Q, hx3]
    have hfyv1 : pyFloat? (fmt3Q y) = some y := by rw [pyFloat?_fmt3Q, hy3]
    have h1 := sumarLine_shape dx dy x y a (fmt3Q x) mid (fmt3Q y) b
      hax hay (fmt3Q_ne_nil x) (fmt3Q_classXY x) hfxv1
      hmx hmy hmh (fmt3Q_ne_nil y) (fmt3Q_classXY y) hfyv1 hbx hby hbh
    have hfxv2 : pyFloat? (fmt3Q (x + dx)) = some (x + dx) := by
      rw [pyFloat?_fmt3Q, round3_add x dx hx3 hdx3]
    have hfyv2 : pyFloat? (fmt3Q (y + dy)) = some (y + dy) := by
      rw [pyFloat?_fmt3Q, round3_add y dy hy3 hdy3]
    have h2 := sumarLine_shape (-dx) (-dy) (x + dx) (y + dy)
      a (fmt3Q (x + dx)) mid (fmt3Q (y + dy)) b
      hax hay (fmt3Q_ne_nil (x + dx)) (fmt3Q_classXY (x + dx)) hfxv2
      hmx hmy hmh (fmt3Q_ne_nil (y + dy)) (fmt3Q_classXY (y + dy)) hfyv2
      hbx hby hbh
    rw [show x + dx + -dx = x from by ring, show y + dy + -dy = y from by ring] at h2
    exact ⟨hone dx dy _ _ h1, hone (-dx) (-dy) _ _ h2⟩

/-- witness for C10_translate_roundtrip: the concrete line
`G1 X1.500 Y2.500` translated by `(1/4, 1)` and back. -/
theorem C10_translate_roundtrip_witness :
    sumar_offset_xy [chars "G1 X1.500 Y2.500"] (mkRat 1 4) 1 =
      some [chars "G1 X1.750 Y3.500"] ∧
    sumar_offset_xy [chars "G1 X1.750 Y3.500"] (-(mkRat 1 4)) (-1) =
      some [chars "G1 X1.500 Y2.500"] ∧
    |round3 (round3 (mkRat 3 2 + mkRat 1 4) - mkRat 1 4) - mkRat 3 2| ≤ 1 / 1000 := by
  have h := C10_translate_roundtrip.2.1 (mkRat 1 4) 1 (mkRat 3 2) (mkRat 5 2)
    (chars "G1 ") (chars "1.500") [' '] (chars "2.500") []
    (by with_unfolding_all decide) (by with_unfolding_all decide)
    (by with_unfolding_all decide) (by with_unfolding_all decide)
    (by with_unfolding_all decide)
    (by with_unfolding_all decide) (by with_unfolding_all decide)
    (by
      intro c hc
      rw [List.head?_cons, Option.some.injEq] at hc
      rw [← hc]
      decide)
    (by with_unfolding_all decide) (by with_unfolding_all decide)
    (by with_unfolding_all decide)
    (by with_unfolding_all decide) (by with_unfolding_all decide)
    (fun c hc => Option.noConfusion hc)
  obtain ⟨h1, h2, _, h4, _⟩ := h
  refine ⟨?_, ?_, h4⟩
  · rw [show chars "G1 X1.500 Y2.500" =
      chars "G1 " ++ 'X' :: (chars "1.500" ++ ([' '] ++ 'Y' :: (chars "2.500" ++ [])))
      from by with_unfolding_all decide]
    rw [h1]
    with_unfolding_all decide
  · rw [show chars "G1 X1.750 Y3.500" =
      chars "G1 " ++ 'X' :: (fmt3Q (mkRat 3 2 + mkRat 1 4) ++
        ([' '] ++ 'Y' :: (fmt3Q (mkRat 5 2 + 1) ++ [])))
      from by with_unfolding_all decide]
    rw [h2]
    with_unfolding_all decide

/-! ## `resample_gcode_scan` on G0/G1 lines with X and Y coordinates -/

theorem getLast?_append_right (l1 l2 : List Char) (h : l2 ≠ []) :
    (l1 ++ l2).getLast? = l2.getLast? := by
  rw [List.getLast?_append]
  cases l2 with
  | nil => exact absurd rfl h
  | cons c t =>
      rw [List.getLast?_eq_getLast_of_ne_nil (List.cons_ne_nil c t)]
      rfl

theorem getLast?_mem_self (l : List Char) (c : Char) (h : l.getLast? = some c) : c ∈ l := by
  obtain ⟨hne, heq⟩ := List.mem_getLast?_eq_getLast (l := l) (x := c) h
  rw [heq]
  exact List.getLast_mem hne

/-- `.strip().upper()` leaves a `G<d> X.. Y..` line with 3-decimal
coordinates untouched. -/
theorem upper_strip_gline (d : Char) (a b : ℚ) (hdu : toUpperC d = d) :
    upper (strip (['G', d, ' '] ++ 'X' :: (fmt3Q a ++ (' ' :: 'Y' :: fmt3Q b)))) =
      ['G', d, ' '] ++ 'X' :: (fmt3Q a ++ (' ' :: 'Y' :: fmt3Q b)) := by
  have hlast : ∀ c,
      (['G', d, ' '] ++ 'X' :: (fmt3Q a ++ (' ' :: 'Y' :: fmt3Q b))).getLast? = some c →
      isWS c = false := by
    intro c hc
    rw [show ['G', d, ' '] ++ 'X' :: (fmt3Q a ++ (' ' :: 'Y' :: fmt3Q b)) =
      (['G', d, ' ', 'X'] ++ (fmt3Q a ++ [' ', 'Y'])) ++ fmt3Q b from by simp] at hc
    rw [getLast?_append_right _ _ (fmt3Q_ne_nil b)] at hc
    exact classXY_not_ws c (fmt3Q_classXY b c (getLast?_mem_self _ c hc))
  refine (congrArg upper (strip_eq_self _ ?_ hlast)).trans (upper_eq_self _ ?_)
  · intro c hc
    rw [List.cons_append, List.head?_cons, Option.some.injEq] at hc
    rw [← hc]; decide
  · intro c hc
    simp only [List.cons_append, List.nil_append, List.mem_cons, List.mem_append] at hc
    rcases hc with rfl | rfl | rfl | rfl | hc | rfl | rfl | hc
    · decide
    · exact hdu
    · decide
    · decide
    · exact toUpperC_eq_of_classXY c (fmt3Q_classXY a c hc)
    · decide
    · decide
    · exact toUpperC_eq_of_classXY c (fmt3Q_classXY b c hc)

/-- the X-coordinate search on a canonical `G<d> X.. Y..` line. -/
theorem findTok_X_gline (d : Char) (a b : ℚ) (hdX : d ≠ 'X') :
    findTok 'X' classXY (['G', d, ' '] ++ 'X' :: (fmt3Q a ++ (' ' :: 'Y' :: fmt3Q b))) =
      some (['G', d, ' '], fmt3Q a, ' ' :: 'Y' :: fmt3Q b) :=
  findTok_shape 'X' classXY (fmt3Q a) (' ' :: 'Y' :: fmt3Q b) (fmt3Q_ne_nil a)
    (fmt3Q_classXY a)
    (by
      intro c hc
      rw [List.head?_cons, Option.some.injEq] at hc
      rw [← hc]; decide)
    ['G', d, ' ']
    (by
      intro c hc
      simp only [List.mem_cons, List.not_mem_nil, or_false] at hc
      rcases hc with rfl | rfl | rfl
      · decide
      · exact hdX
      · decide)

/-- the Y-coordinate search on a canonical `G<d> X.. Y..` line. -/
theorem findTok_Y_gline (d : Char) (a b : ℚ) (hdY : d ≠ 'Y') :
    findTok 'Y' classXY (['G', d, ' '] ++ 'X' :: (fmt3Q a ++ (' ' :: 'Y' :: fmt3Q b))) =
      some (['G', d, ' '] ++ 'X' :: (fmt3Q a ++ [' ']), fmt3Q b, []) := by
  rw [show ['G', d, ' '] ++ 'X' :: (fmt3Q a ++ (' ' :: 'Y' :: fmt3Q b)) =
    (['G', d, ' '] ++ 'X' :: (fmt3Q a ++ [' '])) ++ 'Y' :: (fmt3Q b ++ []) from by simp]
  refine findTok_shape 'Y' classXY (fmt3Q b) [] (fmt3Q_ne_nil b) (fmt3Q_classXY b)
    (fun c hc => Option.noConfusion hc) _ ?_
  intro c hc
  simp only [List.mem_append, List.mem_cons, List.not_mem_nil, or_false] at hc
  rcases hc with (rfl | rfl | rfl) | rfl | hc | rfl
  · decide
  · exact hdY
  · decide
  · decide
  · exact bool_pred_ne (fmt3Q_classXY a c hc) (by decide)
  · decide

/-- a rapid (`G0`) move with X and Y coordinates: position is taken over, the
`overflow` accumulator is reset to zero, and the move is re-emitted. -/
theorem resampleLine_g0 (rt : ℚ → ℚ) (step : ℚ) (st : RState) (a b : ℚ)
    (ha : round3 a = a) (hb : round3 b = b) :
    resampleLine rt step st (chars "G0 X" ++ fmt3Q a ++ chars " Y" ++ fmt3Q b) =
      some (⟨a, b, 0⟩, [chars "G0 X" ++ fmt3Q a ++ chars " Y" ++ fmt3Q b]) := by
  have hline : chars "G0 X" ++ fmt3Q a ++ chars " Y" ++ fmt3Q b =
      ['G', '0', ' '] ++ 'X' :: (fmt3Q a ++ (' ' :: 'Y' :: fmt3Q b)) := by
    rw [List.append_assoc, List.append_assoc]
    rfl
  rw [hline]
  have hul := upper_strip_gline '0' a b (by decide)
  unfold resampleLine
  dsimp only
  rw [hul, findTok_X_gline '0' a b (by decide), findTok_Y_gline '0' a b (by decide)]
  dsimp only
  rw [pyFloat?_fmt3Q a, ha, pyFloat?_fmt3Q b, hb]
  refine Eq.trans (?_ : _ = some ((⟨a, b, 0⟩ : RState),
    [chars "G0 X" ++ fmt3Q a ++ chars " Y" ++ fmt3Q b])) ?_
  · rfl
  · rw [hline]

/-- a working (`G1`) move with X and Y coordinates, segment length `seg` per
the sqrt model: points are emitted every `step` of arc length starting at
`step - overflow`, and the new overflow is what remains past the last
emitted point. -/
theorem resampleLine_g1 (rt : ℚ → ℚ) (step : ℚ) (st : RState) (a b seg : ℚ)
    (ha : round3 a = a) (hb : round3 b = b)
    (hseg : rt ((a - st.currX) ^ 2 + (b - st.currY) ^ 2) = seg)
    (h1 : ¬ seg ≤ 1 / 100000) (h2 : ¬ seg < step - st.overflow) (h3 : 0 < step) :
    resampleLine rt step st (chars "G1 X" ++ fmt3Q a ++ chars " Y" ++ fmt3Q b) =
      some (⟨a, b, seg - ((step - st.overflow) +
              (((floorQ (divQ (seg - (step - st.overflow)) step)).toNat + 1 : ℕ) : ℚ) * step - step)⟩,
            emitRange st.currX st.currY (divQ (a - st.currX) seg) (divQ (b - st.currY) seg)
              step (step - st.overflow) ((floorQ (divQ (seg - (step - st.overflow)) step)).toNat + 1)) := by
  have hline : chars "G1 X" ++ fmt3Q a ++ chars " Y" ++ fmt3Q b =
      ['G', '1', ' '] ++ 'X' :: (fmt3Q a ++ (' ' :: 'Y' :: fmt3Q b)) := by
    rw [List.append_assoc, List.append_assoc]
    rfl
  rw [hline]
  have hul := upper_strip_gline '1' a b (by decide)
  unfold resampleLine
  dsimp only
  rw [hul, findTok_X_gline '1' a b (by decide), findTok_Y_gline '1' a b (by decide)]
  dsimp only
  rw [pyFloat?_fmt3Q a, ha, pyFloat?_fmt3Q b, hb]
  dsimp only
  rw [hseg]
  have hc1 : ¬ (seg ≤ mkRat 1 100000) := by rw [mkRat_eps]; exact h1
  rw [if_neg hc1, if_neg h2, if_neg (not_le.mpr h3)]
  rfl

/-- a working move whose segment length is at most 1e-5 is skipped entirely:
no output, no state change. -/
theorem resampleLine_g1_short (rt : ℚ → ℚ) (step : ℚ) (st : RState) (a b : ℚ)
    (ha : round3 a = a) (hb : round3 b = b)
    (h1 : rt ((a - st.currX) ^ 2 + (b - st.currY) ^ 2) ≤ 1 / 100000) :
    resampleLine rt step st (chars "G1 X" ++ fmt3Q a ++ chars " Y" ++ fmt3Q b) =
      some (st, []) := by
  have hline : chars "G1 X" ++ fmt3Q a ++ chars " Y" ++ fmt3Q b =
      ['G', '1', ' '] ++ 'X' :: (fmt3Q a ++ (' ' :: 'Y' :: fmt3Q b)) := by
    rw [List.append_assoc, List.append_assoc]
    rfl
  rw [hline]
  have hul := upper_strip_gline '1' a b (by decide)
  unfold resampleLine
  dsimp only
  rw [hul, findTok_X_gline '1' a b (by decide), findTok_Y_gline '1' a b (by decide)]
  dsimp only
  rw [pyFloat?_fmt3Q a, ha, pyFloat?_fmt3Q b, hb]
  dsimp only
  have hc1 : rt ((a - st.currX) ^ 2 + (b - st.currY) ^ 2) ≤ mkRat 1 100000 := by
    rw [mkRat_eps]; exact h1
  rw [if_pos hc1]
  rfl

/-- every line `resampleLine` emits is free of `Z` and `F` characters: the
emitted lines carry only `G0 `/`G1 `, `X`, `Y`, spaces and 3-decimal
numbers. -/
theorem resampleLine_noZF (rt : ℚ → ℚ) (step : ℚ) (st : RState) (line : List Char)
    (st1 : RState) (out : List (List Char))
    (h : resampleLine rt step st line = some (st1, out)) :
    ∀ l ∈ out, ∀ c ∈ l, c ≠ 'Z' ∧ c ≠ 'F' := by
  have hemit : ∀ (pre : List Char) (x y : ℚ), (∀ c ∈ pre, c ≠ 'Z' ∧ c ≠ 'F') →
      ∀ c ∈ pre ++ fmt3Q x ++ chars " Y" ++ fmt3Q y, c ≠ 'Z' ∧ c ≠ 'F' := by
    intro pre x y hpre c hc
    simp only [List.append_assoc, List.mem_append] at hc
    rcases hc with hc | hc | hc | hc
    · exact hpre c hc
    · exact ⟨bool_pred_ne (fmt3Q_classXY x c hc) (by decide),
        bool_pred_ne (fmt3Q_classXY x c hc) (by decide)⟩
    · have : c = ' ' ∨ c = 'Y' := by
        rw [show chars " Y" = [' ', 'Y'] from rfl, List.mem_cons, List.mem_singleton] at hc
        exact hc
      rcases this with rfl | rfl
      · exact ⟨by decide, by decide⟩
      · exact ⟨by decide, by decide⟩
    · exact ⟨bool_pred_ne (fmt3Q_classXY y c hc) (by decide),
        bool_pred_ne (fmt3Q_classXY y c hc) (by decide)⟩
  have hnil : ∀ l ∈ ([] : List (List Char)), ∀ c ∈ l, c ≠ 'Z' ∧ c ≠ 'F' :=
    fun l hl => absurd hl (List.not_mem_nil l)
  unfold resampleLine at h
  dsimp only at h
  split at h
  · simp only [Option.some.injEq, Prod.mk.injEq] at h
    rw [← h.2]
    exact hnil
  split at h
  · simp only [Option.some.injEq, Prod.mk.injEq] at h
    rw [← h.2]
    exact hnil
  split at h
  · split at h
    · simp only [Option.some.injEq, Prod.mk.injEq] at h
      rw [← h.2]
      intro l hl
      rw [List.mem_singleton] at hl
      rw [hl]
      exact hemit (chars "G0 X") _ _ (by decide)
    · split at h
      · split at h
        · simp only [Option.some.injEq, Prod.mk.injEq] at h
          rw [← h.2]
          exact hnil
        split at h
        · simp only [Option.some.injEq, Prod.mk.injEq] at h
          rw [← h.2]
          exact hnil
        split at h
        · exact absurd h (by simp)
        · simp only [Option.some.injEq, Prod.mk.injEq] at h
          rw [← h.2]
          intro l hl
          rw [emitRange, List.mem_map] at hl
          obtain ⟨k, -, rfl⟩ := hl
          exact hemit (chars "G1 X") _ _ (by decide)
      · simp only [Option.some.injEq, Prod.mk.injEq] at h
        rw [← h.2]
        exact hnil
  · exact absurd h (by simp)

/-- `resampleGo` never emits a `Z` or `F` character, from any state. -/
theorem resampleGo_noZF (rt : ℚ → ℚ) (step : ℚ) :
    ∀ (lines : List (List Char)) (st st2 : RState) (out : List (List Char)),
      resampleGo rt step st lines = some (st2, out) →
      ∀ l ∈ out, ∀ c ∈ l, c ≠ 'Z' ∧ c ≠ 'F' := by
  intro lines
  induction lines with
  | nil =>
      intro st st2 out h
      simp only [resampleGo, Option.some.injEq, Prod.mk.injEq] at h
      rw [← h.2]
      exact fun l hl => absurd hl (List.not_mem_nil l)
  | cons l0 rest ih =>
      intro st st2 out h
      unfold resampleGo at h
      cases hr1 : resampleLine rt step st l0 with
      | none => rw [hr1] at h; exact absurd h (by simp)
      | some p =>
          obtain ⟨st1, out1⟩ := p
          rw [hr1] at h
          dsimp only at h
          cases hr2 : resampleGo rt step st1 rest with
          | none => rw [hr2] at h; exact absurd h (by simp)
          | some p2 =>
              obtain ⟨stf, out2⟩ := p2
              rw [hr2] at h
              simp only [Option.map_some', Option.some.injEq, Prod.mk.injEq] at h
              intro l hl
              rw [← h.2, List.mem_append] at hl
              rcases hl with hl | hl
              · exact resampleLine_noZF rt step st l0 st1 out1 hr1 l hl
              · exact ih st1 stf out2 hr2 l hl

theorem resampleGo_cons (rt : ℚ → ℚ) (step : ℚ) (st st1 st2 : RState)
    (l : List Char) (rest : List (List Char)) (out1 out2 : List (List Char))
    (h1 : resampleLine rt step st l = some (st1, out1))
    (h2 : resampleGo rt step st1 rest = some (st2, out2)) :
    resampleGo rt step st (l :: rest) = some (st2, out1 ++ out2) := by
  unfold resampleGo
  rw [h1]
  dsimp only
  rw [h2]
  rfl

/-- C9 (ResampleScanPath): working moves are resampled into points every
`step` of arc length, with the leftover distance carried in `overflow` so
spacing is exact across segments (a working move emits points at arc lengths
`step - overflow, +step, ...` and the new overflow is what lies past the
last one); segments of squared length whose root is at most 1e-5 are
skipped; a rapid move resets the accumulator to 0 and re-emits the move; no
`Z` or `F` (feed) character ever appears in the output.  Concretely, with
sqrt 100 = 10: a single working move (0,0)→(0,10) with step 3 yields
y = 3, 6, 9 and overflow 1; a following rapid resets the overflow to 0; a
following working move (0,10)→(0,20) continues at y = 12, 15, 18 (spacing
exact across the boundary). -/
theorem C9_resample :
    (∀ rt : ℚ → ℚ, rt 100 = 10 →
      resample_gcode_scan rt [chars "G1 X0.000 Y10.000", chars "G0 X5.000 Y5.000"] 3 =
        some [chars "G1 X0.000 Y3.000", chars "G1 X0.000 Y6.000", chars "G1 X0.000 Y9.000",
              chars "G0 X5.000 Y5.000"] ∧
      resampleGo rt 3 ⟨0, 0, 0⟩ [chars "G1 X0.000 Y10.000"] =
        some (⟨0, 10, 1⟩, [chars "G1 X0.000 Y3.000", chars "G1 X0.000 Y6.000",
              chars "G1 X0.000 Y9.000"]) ∧
      resampleGo rt 3 ⟨0, 0, 0⟩ [chars "G1 X0.000 Y10.000", chars "G1 X0.000 Y20.000"] =
        some (⟨0, 20, 2⟩, [chars "G1 X0.000 Y3.000", chars "G1 X0.000 Y6.000",
              chars "G1 X0.000 Y9.000", chars "G1 X0.000 Y12.000", chars "G1 X0.000 Y15.000",
              chars "G1 X0.000 Y18.000"]))
  ∧ (∀ (rt : ℚ → ℚ) (step : ℚ) (st : RState) (a b : ℚ), round3 a = a → round3 b = b →
      resampleLine rt step st (chars "G0 X" ++ fmt3Q a ++ chars " Y" ++ fmt3Q b) =
        some (⟨a, b, 0⟩, [chars "G0 X" ++ fmt3Q a ++ chars " Y" ++ fmt3Q b]))
  ∧ (∀ (rt : ℚ → ℚ) (step : ℚ) (st : RState) (a b : ℚ), round3 a = a → round3 b = b →
      rt ((a - st.currX) ^ 2 + (b - st.currY) ^ 2) ≤ 1 / 100000 →
      resampleLine rt step st (chars "G1 X" ++ fmt3Q a ++ chars " Y" ++ fmt3Q b) =
        some (st, []))
  ∧ (∀ (rt : ℚ → ℚ) (step : ℚ) (st : RState) (a b seg : ℚ), round3 a = a → round3 b = b →
      rt ((a - st.currX) ^ 2 + (b - st.currY) ^ 2) = seg →
      ¬ seg ≤ 1 / 100000 → ¬ seg < step - st.overflow → 0 < step →
      resampleLine rt step st (chars "G1 X" ++ fmt3Q a ++ chars " Y" ++ fmt3Q b) =
        some (⟨a, b, seg - ((step - st.overflow) +
                (((floorQ (divQ (seg - (step - st.overflow)) step)).toNat + 1 : ℕ) : ℚ) * step
                  - step)⟩,
              emitRange st.currX st.currY (divQ (a - st.currX) seg) (divQ (b - st.currY) seg)
                step (step - st.overflow)
                ((floorQ (divQ (seg - (step - st.overflow)) step)).toNat + 1)))
  ∧ (∀ (rt : ℚ → ℚ) (step : ℚ) (text out : List (List Char)),
      resample_gcode_scan rt text step = some out →
      ∀ l ∈ out, ∀ c ∈ l, c ≠ 'Z' ∧ c ≠ 'F') := by
  refine ⟨?_,
    fun rt step st a b ha hb => resampleLine_g0 rt step st a b ha hb,
    fun rt step st a b ha hb h1 => resampleLine_g1_short rt step st a b ha hb h1,
    fun rt step st a b seg ha hb hseg h1 h2 h3 =>
      resampleLine_g1 rt step st a b seg ha hb hseg h1 h2 h3,
    ?_⟩
  · intro rt hrt
    have e1 : resampleLine rt 3 ⟨0, 0, 0⟩ (chars "G1 X0.000 Y10.000") =
        some (⟨0, 10, 1⟩, [chars "G1 X0.000 Y3.000", chars "G1 X0.000 Y6.000",
          chars "G1 X0.000 Y9.000"]) := by
      rw [show chars "G1 X0.000 Y10.000" = chars "G1 X" ++ fmt3Q 0 ++ chars " Y" ++ fmt3Q 10
        from by with_unfolding_all decide]
      have hseg : rt (((0 : ℚ) - 0) ^ 2 + ((10 : ℚ) - 0) ^ 2) = 10 := by
        rw [show (((0 : ℚ) - 0) ^ 2 + ((10 : ℚ) - 0) ^ 2) = 100 from by norm_num]
        exact hrt
      refine (resampleLine_g1 rt 3 ⟨0, 0, 0⟩ 0 10 10 (by with_unfolding_all decide)
        (by with_unfolding_all decide) hseg (by norm_num)
        (by show ¬ (10 : ℚ) < 3 - 0; norm_num) (by norm_num)).trans ?_
      with_unfolding_all decide
    have e2 : resampleLine rt 3 ⟨0, 10, 1⟩ (chars "G0 X5.000 Y5.000") =
        some (⟨5, 5, 0⟩, [chars "G0 X5.000 Y5.000"]) := by
      rw [show chars "G0 X5.000 Y5.000" = chars "G0 X" ++ fmt3Q 5 ++ chars " Y" ++ fmt3Q 5
        from by with_unfolding_all decide]
      refine (resampleLine_g0 rt 3 ⟨0, 10, 1⟩ 5 5 (by with_unfolding_all decide)
        (by with_unfolding_all decide)).trans ?_
      with_unfolding_all decide
    have e3 : resampleLine rt 3 ⟨0, 10, 1⟩ (chars "G1 X0.000 Y20.000") =
        some (⟨0, 20, 2⟩, [chars "G1 X0.000 Y12.000", chars "G1 X0.000 Y15.000",
          chars "G1 X0.000 Y18.000"]) := by
      rw [show chars "G1 X0.000 Y20.000" = chars "G1 X" ++ fmt3Q 0 ++ chars " Y" ++ fmt3Q 20
        from by with_unfolding_all decide]
      have hseg : rt (((0 : ℚ) - 0) ^ 2 + ((20 : ℚ) - 10) ^ 2) = 10 := by
        rw [show (((0 : ℚ) - 0) ^ 2 + ((20 : ℚ) - 10) ^ 2) = 100 from by norm_num]
        exact hrt
      refine (resampleLine_g1 rt 3 ⟨0, 10, 1⟩ 0 20 10 (by with_unfolding_all decide)
        (by with_unfolding_all decide) hseg (by norm_num)
        (by show ¬ (10 : ℚ) < 3 - 1; norm_num) (by norm_num)).trans ?_
      with_unfolding_all decide
    have hb : resampleGo rt 3 ⟨0, 0, 0⟩ [chars "G1 X0.000 Y10.000"] =
        some (⟨0, 10, 1⟩, [chars "G1 X0.000 Y3.000", chars "G1 X0.000 Y6.000",
          chars "G1 X0.000 Y9.000"]) :=
      resampleGo_cons rt 3 ⟨0, 0, 0⟩ ⟨0, 10, 1⟩ ⟨0, 10, 1⟩ _ [] _ [] e1 rfl
    have hgo2 : resampleGo rt 3 ⟨0, 0, 0⟩
        [chars "G1 X0.000 Y10.000", chars "G0 X5.000 Y5.000"] =
        some (⟨5, 5, 0⟩, [chars "G1 X0.000 Y3.000", chars "G1 X0.000 Y6.000",
          chars "G1 X0.000 Y9.000", chars "G0 X5.000 Y5.000"]) :=
      resampleGo_cons rt 3 ⟨0, 0, 0⟩ ⟨0, 10, 1⟩ ⟨5, 5, 0⟩ _ _ _ _ e1
        (resampleGo_cons rt 3 ⟨0, 10, 1⟩ ⟨5, 5, 0⟩ ⟨5, 5, 0⟩ _ [] _ [] e2 rfl)
    have hgo3 : resampleGo rt 3 ⟨0, 0, 0⟩
        [chars "G1 X0.000 Y10.000", chars "G1 X0.000 Y20.000"] =
        some (⟨0, 20, 2⟩, [chars "G1 X0.000 Y3.000", chars "G1 X0.000 Y6.000",
          chars "G1 X0.000 Y9.000", chars "G1 X0.000 Y12.000", chars "G1 X0.000 Y15.000",
          chars "G1 X0.000 Y18.000"]) :=
      resampleGo_cons rt 3 ⟨0, 0, 0⟩ ⟨0, 10, 1⟩ ⟨0, 20, 2⟩ _ _ _ _ e1
        (resampleGo_cons rt 3 ⟨0, 10, 1⟩ ⟨0, 20, 2⟩ ⟨0, 20, 2⟩ _ [] _ [] e3 rfl)
    refine ⟨?_, hb, hgo3⟩
    unfold resample_gcode_scan
    rw [hgo2]
    rfl
  · intro rt step text out h
    unfold resample_gcode_scan at h
    cases hg : resampleGo rt step ⟨0, 0, 0⟩ text with
    | none => rw [hg] at h; exact absurd h (by simp)
    | some p =>
        obtain ⟨st2, out2⟩ := p
        rw [hg] at h
        simp only [Option.map_some', Option.some.injEq] at h
        rw [← h]
        exact resampleGo_noZF rt step text ⟨0, 0, 0⟩ st2 out2 hg

/-- witness for C9_resample: the constant model `sqrt = 10` realises the
concrete pipeline, a rapid move reset, and a skipped short segment with a
zero sqrt model. -/
theorem C9_resample_witness :
    resample_gcode_scan (fun _ : ℚ => 10) [chars "G1 X0.000 Y10.000", chars "G0 X5.000 Y5.000"] 3 =
      some [chars "G1 X0.000 Y3.000", chars "G1 X0.000 Y6.000", chars "G1 X0.000 Y9.000",
            chars "G0 X5.000 Y5.000"] ∧
    resampleLine (fun _ : ℚ => 10) 3 ⟨0, 0, 0⟩
        (chars "G0 X" ++ fmt3Q 5 ++ chars " Y" ++ fmt3Q 5) =
      some (⟨5, 5, 0⟩, [chars "G0 X" ++ fmt3Q 5 ++ chars " Y" ++ fmt3Q 5]) ∧
    resampleLine (fun _ : ℚ => 0) 3 ⟨0, 0, 0⟩
        (chars "G1 X" ++ fmt3Q 1 ++ chars " Y" ++ fmt3Q 1) =
      some (⟨0, 0, 0⟩, []) :=
  ⟨(C9_resample.1 (fun _ => 10) rfl).1,
   C9_resample.2.1 (fun _ => 10) 3 ⟨0, 0, 0⟩ 5 5
     (by with_unfolding_all decide) (by with_unfolding_all decide),
   C9_resample.2.2.1 (fun _ => 0) 3 ⟨0, 0, 0⟩ 1 1
     (by with_unfolding_all decide) (by with_unfolding_all decide) (by norm_num)⟩

end CookieMachine
